import Mathlib

set_option maxHeartbeats 1000000
set_option maxRecDepth 4000

/-!
Shallow embedding of the dependency-tree resolution and migration-compatibility
analysis engine of `src/services/migration-analyzer.ts` and of the stage
planner of `src/components/migration/MigrationRoadmap.tsx`.

Modelling conventions:
* TypeScript objects become Lean structures; the recursive `MigrationPackage`
  tree becomes a nested inductive with a data part and a dependency list.
* The registry client (`nuget-api.ts`) and the metadata cache
  (`cache-service.ts`) are external collaborators; they are modelled as finite
  association lists of responses inside an environment record.  A fetch that
  throws (`NotFound` / network error) is modelled as an absent entry
  (`Option.none`), matching the `try`/`catch` recovery in the source.
* The loader runs on JavaScript's single-threaded cooperative event loop; the
  embedding is its deterministic sequential semantics: children are resolved
  left to right in declaration order (the order `Promise.all` reassembles).
  Under sequential execution the in-flight-promise coalescing map always holds
  exactly the ancestor chain of the current call, which the `ancestors` check
  already handles, so that map is not represented separately.
* JavaScript truthiness on strings (the empty string is falsy) is modelled
  explicitly wherever the source relies on it (`devVersionFilter &&`,
  `devMatch || latestStable || versions[0] || "unknown"`, `!!tfm`).
-/

namespace NugetExplorer

/-! ## String helpers (JS string operations used by the source) -/
/-- `charsStartWith s pre`: the char list `s` starts with `pre`. -/
def charsStartWith : (s pre : List Char) → Bool
  | _, [] => true
  | [], _ :: _ => false
  | c :: cs, p :: ps => c == p && charsStartWith cs ps

/-- JS `s.startsWith(pre)` (over the underlying character lists, so that the
kernel can evaluate it on concrete inputs). -/
def strStartsWith (s pre : String) : Bool := charsStartWith s.data pre.data

/-- Occurrence scan for `containsSubstr`. -/
def containsSubAux (sub : List Char) : List Char → Bool
  | [] => charsStartWith [] sub
  | c :: cs => charsStartWith (c :: cs) sub || containsSubAux sub cs

/-- JS `s.includes(sub)`: some suffix of `s` starts with `sub` (true for the
empty needle, as in JS). -/
def containsSubstr (s sub : String) : Bool := containsSubAux sub.data s.data

/-- JS `s.toLowerCase()` (package ids and versions are ASCII), character by
character over the underlying list. -/
def lower (s : String) : String := String.mk (s.data.map Char.toLower)

/-! ## Target-framework moniker parsing (`parseFrameworkVersion`) -/
/-- Result of `parseFrameworkVersion`: a `(family, numeric version)` pair. -/
structure ParsedTfm where
  family : String
  version : Nat
deriving Repr, DecidableEq

/-- Digit run to number, as `parseInt(·, 10)` on a digit-only string. -/
def digitsToNat (cs : List Char) : Nat :=
  cs.foldl (fun n c => n * 10 + (c.toNat - 48)) 0

/-- Match the anchored regex tail `(\d+)\.(\d+)$`: one or more digits, a dot,
one or more digits, end of input.  Returns the two numbers. -/
def parseVersionSuffix (cs : List Char) : Option (Nat × Nat) :=
  let d1 := cs.takeWhile Char.isDigit
  match cs.dropWhile Char.isDigit with
  | '.' :: rest2 =>
    let d2 := rest2.takeWhile Char.isDigit
    if d1 ≠ [] ∧ d2 ≠ [] ∧ rest2.dropWhile Char.isDigit = [] then
      some (digitsToNat d1, digitsToNat d2)
    else none
  | _ => none

/-- `parseFrameworkVersion` from the source: tries the anchored regexes
`^net(\d+)\.(\d+)$`, `^netcoreapp(\d+)\.(\d+)$`, `^netstandard(\d+)\.(\d+)$`.
Testing the longer literal prefixes first is equivalent to the source's order,
because `^net(\d+)...` cannot match a string continuing with `coreapp`/`standard`.
For `net`/`netcoreapp` the minor version is dropped (only the major is kept);
for `netstandard` the version is `major * 10 + minor`, exactly as in the source. -/
def parseFrameworkVersion (tfm : String) : Option ParsedTfm :=
  if tfm.toList.take 10 = "netcoreapp".toList then
    (parseVersionSuffix (tfm.toList.drop 10)).map fun p => ⟨"netcoreapp", p.1⟩
  else if tfm.toList.take 11 = "netstandard".toList then
    (parseVersionSuffix (tfm.toList.drop 11)).map fun p => ⟨"netstandard", p.1 * 10 + p.2⟩
  else if tfm.toList.take 3 = "net".toList then
    (parseVersionSuffix (tfm.toList.drop 3)).map fun p => ⟨"net", p.1⟩
  else none

/-! ## Framework compatibility engine -/
/-- `compatibilityMode` values of the source's `FrameworkCompatibility`. -/
inductive CompatibilityMode where
  | direct | netstandard | portable | none
deriving Repr, DecidableEq

/-- The source's `FrameworkCompatibility` record. -/
structure FrameworkCompatibility where
  framework : String
  supported : Bool
  compatibilityMode : CompatibilityMode
deriving Repr, DecidableEq

/-- `isInDirectChain` from the source. -/
def isInDirectChain (pkgTfm target : ParsedTfm) : Bool :=
  (pkgTfm.family == target.family && pkgTfm.version ≤ target.version)
  || (pkgTfm.family == "netcoreapp" && target.family == "net" && 5 ≤ target.version)

/-- `comparePrecedence` from the source (positive means `a` outranks `b`).
The family test is on the raw TFM string via `startsWith("netcoreapp")`. -/
def comparePrecedence (a b : String × Nat) : Int :=
  let aFamily := if strStartsWith a.1 "netcoreapp" then "netcoreapp" else "net"
  let bFamily := if strStartsWith b.1 "netcoreapp" then "netcoreapp" else "net"
  if aFamily ≠ bFamily then (if aFamily = "net" then 1 else -1)
  else (a.2 : Int) - (b.2 : Int)

/-- One step of the `for (const tfm of packageFrameworks)` loop in
`isFrameworkSupportedDetailed`, acting on the `(bestDirect, hasNetstandard)`
state. -/
def scanStep (target : ParsedTfm) (st : Option (String × Nat) × Bool) (tfm : String) :
    Option (String × Nat) × Bool :=
  match parseFrameworkVersion tfm with
  | Option.none => st
  | some parsed =>
    if parsed.family == "netstandard" then
      if target.family == "net" || target.family == "netcoreapp" then (st.1, true) else st
    else if isInDirectChain parsed target then
      let candidate := (tfm, parsed.version)
      match st.1 with
      | Option.none => (some candidate, st.2)
      | some bestDirect =>
        if 0 < comparePrecedence candidate bestDirect then (some candidate, st.2) else st
    else st

/-- The whole scan loop of `isFrameworkSupportedDetailed`. -/
def scanTfms (target : ParsedTfm) (packageFrameworks : List String) :
    Option (String × Nat) × Bool :=
  packageFrameworks.foldl (scanStep target) (Option.none, false)

/-- `isFrameworkSupportedDetailed` from the source. -/
def isFrameworkSupportedDetailed (packageFrameworks : List String)
    (targetFramework : String) : FrameworkCompatibility :=
  if packageFrameworks.isEmpty then ⟨targetFramework, true, .portable⟩
  else
    match parseFrameworkVersion targetFramework with
    | Option.none => ⟨targetFramework, false, .none⟩
    | some target =>
      let st := scanTfms target packageFrameworks
      if st.1.isSome then ⟨targetFramework, true, .direct⟩
      else if st.2 then ⟨targetFramework, true, .netstandard⟩
      else ⟨targetFramework, false, .none⟩

/-- `isFrameworkSupported` from the source — thin boolean wrapper. -/
def isFrameworkSupported (packageFrameworks : List String)
    (targetFramework : String) : Bool :=
  (isFrameworkSupportedDetailed packageFrameworks targetFramework).supported

/-! ### Claim-level classification rule (C4 wording / spec §4.1)

The following definitions restate the `direct` / `netstandard` / `portable` /
`none` rule in the words of the specification, to be compared with the source
function above. -/
/-- Claim wording: some declared `net`/`netcoreapp` moniker is of the same
family as the target with version ≤ the target's version, or is a `netcoreapp`
moniker against a `net` target of version ≥ 5. -/
def specDirectMatch (fws : List String) (target : String) : Bool :=
  fws.any fun f =>
    match parseFrameworkVersion f, parseFrameworkVersion target with
    | some p, some q =>
      ((p.family == "net" || p.family == "netcoreapp")
        && p.family == q.family && p.version ≤ q.version)
      || (p.family == "netcoreapp" && q.family == "net" && 5 ≤ q.version)
    | _, _ => false

/-- Claim wording: some declared `netstandard*` moniker, and the target is in
the `net`/`netcoreapp` family. -/
def specNetstandardMatch (fws : List String) (target : String) : Bool :=
  (fws.any fun f =>
    match parseFrameworkVersion f with
    | some p => p.family == "netstandard"
    | Option.none => false)
  && (match parseFrameworkVersion target with
      | some q => q.family == "net" || q.family == "netcoreapp"
      | Option.none => false)

/-- The compatibility classification exactly as the claim states it. -/
def specCompatClassification (fws : List String) (target : String) :
    Bool × CompatibilityMode :=
  if fws = [] then (true, .portable)
  else if specDirectMatch fws target then (true, .direct)
  else if specNetstandardMatch fws target then (true, .netstandard)
  else (false, .none)

/-- The per-moniker predicate driving the `bestDirect` slot of the scan. -/
def directPred (q : ParsedTfm) (f : String) : Bool :=
  match parseFrameworkVersion f with
  | some p => !(p.family == "netstandard") && isInDirectChain p q
  | Option.none => false

/-- The per-moniker predicate driving the `hasNetstandard` flag of the scan. -/
def netstdPred (q : ParsedTfm) (f : String) : Bool :=
  match parseFrameworkVersion f with
  | some p =>
    (p.family == "netstandard") && (q.family == "net" || q.family == "netcoreapp")
  | Option.none => false

/-! ## The `MigrationPackage` tree (data model of `types/migration`)

`status` value `"partial"` is rendered as `partial_` (`partial` is a Lean
keyword).  Optional JS fields absent from a freshly loaded node (`isCyclic`,
`isSharedReference`, `frameworkCompatibility`, `perFrameworkVersions`) are
modelled as `Bool`/`Option` with `false`/`none` for "absent". -/
inductive Status where
  | ready | partial_ | blocked | split
deriving Repr, DecidableEq

/-- The source's `PerFrameworkVersion` record. -/
structure PerFrameworkVersion where
  framework : String
  version : String
deriving Repr, DecidableEq

/-- The non-recursive fields of a `MigrationPackage` node. -/
structure PkgData where
  id : String
  version : String
  availableVersions : List String
  isInternal : Bool
  depth : Nat
  targetFrameworks : List String
  status : Status
  blockerCount : Nat
  migrationOrder : Int
  isCyclic : Bool
  isSharedReference : Bool
  frameworkCompatibility : Option (List FrameworkCompatibility)
  perFrameworkVersions : Option (List PerFrameworkVersion)
deriving Repr, DecidableEq

/-- A `MigrationPackage` node: its data plus its `dependencies` list. -/
inductive MigrationPackage : Type where
  | mk (data : PkgData) (dependencies : List MigrationPackage)

def MigrationPackage.data : MigrationPackage → PkgData
  | .mk d _ => d

def MigrationPackage.dependencies : MigrationPackage → List MigrationPackage
  | .mk _ deps => deps

def MigrationPackage.id (p : MigrationPackage) : String := p.data.id

def MigrationPackage.version (p : MigrationPackage) : String := p.data.version

def MigrationPackage.status (p : MigrationPackage) : Status := p.data.status

def MigrationPackage.isCyclic (p : MigrationPackage) : Bool := p.data.isCyclic

def MigrationPackage.isSharedReference (p : MigrationPackage) : Bool :=
  p.data.isSharedReference

/-- The lowercase identity key of a node (`pkg.id.toLowerCase()`). -/
def MigrationPackage.key (p : MigrationPackage) : String := lower p.data.id

mutual
def pkgDecEq : (a b : MigrationPackage) → Decidable (a = b)
  | .mk d1 l1, .mk d2 l2 =>
    match decEq d1 d2, pkgListDecEq l1 l2 with
    | isTrue h1, isTrue h2 => isTrue (by rw [h1, h2])
    | isFalse h1, _ => isFalse (by intro h; injection h; exact h1 (by assumption))
    | _, isFalse h2 => isFalse (by intro h; injection h; exact h2 (by assumption))
def pkgListDecEq : (a b : List MigrationPackage) → Decidable (a = b)
  | [], [] => isTrue rfl
  | [], _ :: _ => isFalse (by intro h; exact List.noConfusion h)
  | _ :: _, [] => isFalse (by intro h; exact List.noConfusion h)
  | a :: as, b :: bs =>
    match pkgDecEq a b, pkgListDecEq as bs with
    | isTrue h1, isTrue h2 => isTrue (by rw [h1, h2])
    | isFalse h1, _ => isFalse (by intro h; injection h; exact h1 (by assumption))
    | _, isFalse h2 => isFalse (by intro h; injection h; exact h2 (by assumption))
end

instance : DecidableEq MigrationPackage := pkgDecEq

mutual
/-- All node occurrences of a tree, in depth-first preorder. -/
def occList : MigrationPackage → List MigrationPackage
  | .mk d deps => .mk d deps :: occListF deps
/-- All node occurrences of a forest, in depth-first preorder. -/
def occListF : List MigrationPackage → List MigrationPackage
  | [] => []
  | p :: ps => occList p ++ occListF ps
end

/-- Accumulator pass of `dedupStr`: keep elements not yet seen. -/
def dedupStrAux (seen : List String) : List String → List String
  | [] => []
  | x :: xs => if x ∈ seen then dedupStrAux seen xs else x :: dedupStrAux (x :: seen) xs

/-- First-occurrence-preserving deduplication of a string list
(JS `[...new Set(list)]`). -/
def dedupStr (l : List String) : List String := dedupStrAux [] l

/-! ## Version-conflict detection (`detectVersionConflicts`) -/
/-- One entry of the source's `versionRequests` map values; the source calls
the first field `by` (a Lean keyword), here `requestedBy`. -/
structure VersionRequest where
  requestedBy : String
  version : String
deriving Repr, DecidableEq

/-- The source's `VersionConflict` record. -/
structure VersionConflict where
  packageId : String
  requestedVersions : List VersionRequest
deriving Repr, DecidableEq

/-- The request map: JS `Map` in insertion order, key → request list.
`upsertRequest` models `versionRequests.get(key).push(entry)` with the
`if (!has(key)) set(key, [])` guard. -/
def upsertRequest (m : List (String × List VersionRequest)) (key : String)
    (r : VersionRequest) : List (String × List VersionRequest) :=
  match m with
  | [] => [(key, [r])]
  | (k, rs) :: rest =>
    if k = key then (k, rs ++ [r]) :: rest else (k, rs) :: upsertRequest rest key r

mutual
/-- `collectVersions` from the source: for each direct dependency record
`(parent.id, dep.version)` under key `dep.id.toLowerCase()`, then recurse into
the dependency (every occurrence is walked, shared subtrees included). -/
def collectVersions : MigrationPackage → List (String × List VersionRequest) →
    List (String × List VersionRequest)
  | .mk d deps, m => collectVersionsDeps d.id deps m
/-- The `for (const dep of pkg.dependencies)` loop of `collectVersions`. -/
def collectVersionsDeps : String → List MigrationPackage →
    List (String × List VersionRequest) → List (String × List VersionRequest)
  | _, [], m => m
  | parentId, dep :: rest, m =>
    let m1 := upsertRequest m (lower dep.id) ⟨parentId, dep.version⟩
    let m2 := collectVersions dep m1
    collectVersionsDeps parentId rest m2
end

/-- `detectVersionConflicts` from the source. -/
def detectVersionConflicts (packages : List MigrationPackage) :
    List VersionConflict :=
  let versionRequests := packages.foldl (fun m pkg => collectVersions pkg m) []
  (versionRequests.filter fun e => 1 < (dedupStr (e.2.map (·.version))).length).map
    fun e => ⟨e.1, e.2⟩

/-! ### Claim-level view of conflict detection (C7) -/
/-- First-match lookup in the request map (JS `map.get(key)`, `[]` if absent). -/
def assocGet : List (String × List VersionRequest) → String → List VersionRequest
  | [], _ => []
  | (k, rs) :: rest, key => if k = key then rs else assocGet rest key

mutual
/-- Claim wording: the requests recorded for dependency id `key` while walking
every (parent, direct-child) edge of one tree — each edge whose child id
lower-cases to `key` contributes the pair (requesting package id, requested
version), in walk order. -/
def specRequests (key : String) : MigrationPackage → List VersionRequest
  | .mk d deps => specRequestsDeps key d.id deps
/-- Edge walk over the children of one parent. -/
def specRequestsDeps (key parentId : String) : List MigrationPackage →
    List VersionRequest
  | [] => []
  | dep :: rest =>
    (if lower dep.id = key then [⟨parentId, dep.version⟩] else [])
      ++ specRequests key dep ++ specRequestsDeps key parentId rest
end

/-- Requests for `key` over a whole forest, root by root. -/
def specRequestsF (key : String) : List MigrationPackage → List VersionRequest
  | [] => []
  | p :: ps => specRequests key p ++ specRequestsF key ps

/-- Well-formedness of the request map: keys unique, values non-empty. -/
def WfReqMap (m : List (String × List VersionRequest)) : Prop :=
  (m.map (·.1)).Nodup ∧ ∀ e ∈ m, e.2 ≠ []

/-- Test-fixture node builder: a package node with the given id, resolved
version and dependency list (remaining fields as a freshly loaded node). -/
def exNode (id version : String) (deps : List MigrationPackage) : MigrationPackage :=
  .mk ⟨id, version, [], false, 0, [], .ready, 0, -1, false, false,
    Option.none, Option.none⟩ deps

/-! ## Stage planner (`MigrationRoadmap.tsx`)

The roadmap component groups root packages into stages with Kahn's algorithm
over a root-only dependency graph.  Only a view's id, status and direct
dependency counts influence staging, so `RootPackageView` is modelled with
exactly those fields (the source view also carries display data). -/
/-- The staging-relevant part of the source's `RootPackageView`. -/
structure RootPackageView where
  id : String
  status : Status
  internalCount : Nat
  externalCount : Nat
deriving Repr, DecidableEq

/-- Building one root's view: direct dependencies split by `isInternal`
(shared references included, as in the source). -/
def toView (root : MigrationPackage) : RootPackageView :=
  ⟨root.id, root.status,
    (root.dependencies.filter (·.data.isInternal)).length,
    (root.dependencies.filter fun d => !d.data.isInternal).length⟩

mutual
/-- `collectRootDeps` from the source: walk the subtree, record every
dependency whose lowercase id is a root id, and do not re-traverse shared
references.  The JS `Set` is a deduplicated list. -/
def collectRootDeps (rootIds : List String) : MigrationPackage → List String →
    List String
  | .mk _ deps, acc => collectRootDepsL rootIds deps acc
/-- The `for (const dep of p.dependencies)` loop of `collectRootDeps`. -/
def collectRootDepsL (rootIds : List String) : List MigrationPackage →
    List String → List String
  | [], acc => acc
  | dep :: rest, acc =>
    let acc1 := if rootIds.contains dep.key && !(acc.contains dep.key)
      then acc ++ [dep.key] else acc
    let acc2 := if dep.isSharedReference then acc1
      else collectRootDeps rootIds dep acc1
    collectRootDepsL rootIds rest acc2
end

/-- Replace-or-append on an association list (JS `map.set`). -/
def setReplace (m : List (String × List String)) (key : String)
    (val : List String) : List (String × List String) :=
  match m with
  | [] => [(key, val)]
  | (k, v) :: rest =>
    if k = key then (k, val) :: rest else (k, v) :: setReplace rest key val

/-- First-match lookup (JS `map.get`, `[]` when absent). -/
def lookupDeps : List (String × List String) → String → List String
  | [], _ => []
  | (k, v) :: rest, key => if k = key then v else lookupDeps rest key

/-- `depsByRoot` from the source: per root, its transitive root-level
prerequisites with the self-reference removed; later roots overwrite earlier
ones with the same key, as `map.set` does. -/
def buildDepsByRoot (rootIds : List String) (packages : List MigrationPackage) :
    List (String × List String) :=
  packages.foldl
    (fun m pkg =>
      setReplace m pkg.key
        ((collectRootDeps rootIds pkg []).filter (· ≠ pkg.key)))
    []

/-- The batch comparator of the source's `batch.sort`: ascending by
(status == split, then internal + external dependency count). -/
def stageLE (a b : RootPackageView) : Bool :=
  let splitA : Nat := if a.status = .split then 1 else 0
  let splitB : Nat := if b.status = .split then 1 else 0
  decide (splitA < splitB
    ∨ (splitA = splitB
      ∧ a.internalCount + a.externalCount ≤ b.internalCount + b.externalCount))

/-- Stable insertion of `x` after every element `y` with `le y x`. -/
def insertSorted {α : Type} (le : α → α → Bool) (x : α) : List α → List α
  | [] => [x]
  | y :: ys => if le y x then y :: insertSorted le x ys else x :: y :: ys

/-- Stable sort by a total preorder `le` — the semantics of JS's stable
`Array.prototype.sort` with an ascending comparator. -/
def sortStable {α : Type} (le : α → α → Bool) (l : List α) : List α :=
  l.foldl (fun acc x => insertSorted le x acc) []

/-- The batch of remaining roots whose root-level prerequisites are all
placed, in `views` order — the inner `for (const view of views)` loop. -/
def qualifying (views : List RootPackageView) (depsBy : List (String × List String))
    (placed remaining : List String) : List RootPackageView :=
  views.filter fun v =>
    remaining.contains (lower v.id)
      && (lookupDeps depsBy (lower v.id)).all fun d => placed.contains d

/-- The circular-fallback collection: push each view still remaining and
delete its key, so a duplicated root key is pushed only once. -/
def takeRemaining : List RootPackageView → List String → List RootPackageView
  | [], _ => []
  | v :: vs, rem =>
    if rem.contains (lower v.id) then
      v :: takeRemaining vs (rem.erase (lower v.id))
    else takeRemaining vs rem

/-- The Kahn staging loop of `MigrationRoadmap`.  The `while` loop is given
fuel; every productive iteration strictly shrinks `remaining`, and the
top-level entry point supplies enough fuel for the loop never to run dry. -/
def buildStages (views : List RootPackageView)
    (depsBy : List (String × List String)) :
    Nat → List String → List String → List (List RootPackageView)
  | 0, _, _ => []
  | fuel + 1, placed, remaining =>
    if remaining.isEmpty then []
    else
      let batch := qualifying views depsBy placed remaining
      if batch.isEmpty then [sortStable stageLE (takeRemaining views remaining)]
      else
        let batchKeys := batch.map fun v => lower v.id
        sortStable stageLE batch ::
          buildStages views depsBy fuel (placed ++ batchKeys)
            (remaining.filter fun k => !batchKeys.contains k)

/-- The `stages` computation of `MigrationRoadmap` (root views grouped into
dependency-respecting stages). -/
def roadmapStages (packages : List MigrationPackage) :
    List (List RootPackageView) :=
  let rootIds := dedupStr (packages.map (·.key))
  let views := packages.map toView
  let depsBy := buildDepsByRoot rootIds packages
  let remaining := dedupStr (views.map fun v => lower v.id)
  buildStages views depsBy (remaining.length + 1) [] remaining

/-- The staging contract exactly as claim C8 states it: the planner repeatedly
emits as the next stage exactly the set of remaining roots all of whose
root-level prerequisites are already placed, each batch sorted ascending by
(status == split, then total direct-dependency count); when no remaining root
qualifies, all remaining roots are emitted as one final stage. -/
inductive StagesSpec (views : List RootPackageView)
    (depsBy : List (String × List String)) :
    List String → List String → List (List RootPackageView) → Prop where
  | done (placed : List String) : StagesSpec views depsBy placed [] []
  | step {placed remaining : List String} {stage : List RootPackageView}
      {rest : List (List RootPackageView)}
      (hne : remaining ≠ [])
      (hqual : qualifying views depsBy placed remaining ≠ [])
      (hperm : stage.Perm (qualifying views depsBy placed remaining))
      (hsorted : stage.Pairwise fun a b => stageLE a b = true)
      (hrest : StagesSpec views depsBy
        (placed ++ (qualifying views depsBy placed remaining).map fun v => lower v.id)
        (remaining.filter fun k =>
          !((qualifying views depsBy placed remaining).map fun v => lower v.id).contains k)
        rest) :
      StagesSpec views depsBy placed remaining (stage :: rest)
  | circular {placed remaining : List String} {stage : List RootPackageView}
      (hne : remaining ≠ [])
      (hqual : qualifying views depsBy placed remaining = [])
      (hperm : stage.Perm (takeRemaining views remaining))
      (hsorted : stage.Pairwise fun a b => stageLE a b = true) :
      StagesSpec views depsBy placed remaining [stage]

/-! ## Registry data (`types/nuget`) and the migration analyzer -/
/-- A declared dependency entry of a dependency group. -/
structure Dependency where
  id : String
  range : Option String
deriving Repr, DecidableEq

/-- A dependency group of package details (`targetFramework` and
`dependencies` are both optional in the wire format). -/
structure DependencyGroup where
  targetFramework : Option String
  dependencies : Option (List Dependency)
deriving Repr, DecidableEq

/-- The part of `PackageDetails` the engine consumes. -/
structure PackageDetails where
  dependencyGroups : Option (List DependencyGroup)
deriving Repr, DecidableEq

/-- The registry client for the analyzer, as an external collaborator: a
finite table of `getPackageDetails(id, version)` responses; an absent entry is
a fetch that throws. -/
structure AnalyzeEnv where
  detailsList : List ((String × String) × PackageDetails)
deriving Repr

/-- `getPackageDetails` lookup (first match). -/
def AnalyzeEnv.getPackageDetails (env : AnalyzeEnv) (packageId version : String) :
    Option PackageDetails :=
  env.detailsList.lookup (packageId, version)

/-- `(details.dependencyGroups || []).map(g => g.targetFramework).filter(!!tfm)`
— the declared frameworks of one details response (no dedup here; the split
search does not deduplicate). -/
def frameworksOfDetails (d : PackageDetails) : List String :=
  (d.dependencyGroups.getD []).filterMap fun g =>
    match g.targetFramework with
    | some s => if s = "" then Option.none else some s
    | Option.none => Option.none

/-- `findCompatibleVersionForFramework` from the source: scan
`availableVersions` newest-to-oldest, fetch details per candidate (a throwing
fetch is skipped by the `catch { continue }`), return the first version whose
declared frameworks support the target. -/
def findCompatibleVersionForFramework (env : AnalyzeEnv) (packageId : String)
    (availableVersions : List String) (targetFramework : String) :
    Option (String × List String) :=
  match availableVersions with
  | [] => Option.none
  | version :: rest =>
    match env.getPackageDetails packageId version with
    | Option.none =>
      findCompatibleVersionForFramework env packageId rest targetFramework
    | some details =>
      let frameworks := frameworksOfDetails details
      if isFrameworkSupported frameworks targetFramework then
        some (version, frameworks)
      else findCompatibleVersionForFramework env packageId rest targetFramework

/-- The `for (const fc of unsupported)` search loop of `analyzePackageImpl`:
collect a found version per unsupported framework, abandoning everything at
the first framework with no compatible version (`allFound = false; break`). -/
def searchUnsupported (env : AnalyzeEnv) (packageId : String)
    (availableVersions : List String) :
    List FrameworkCompatibility → Option (List PerFrameworkVersion)
  | [] => some []
  | fc :: rest =>
    match findCompatibleVersionForFramework env packageId availableVersions
        fc.framework with
    | some found =>
      (searchUnsupported env packageId availableVersions rest).map
        fun vs => ⟨fc.framework, found.1⟩ :: vs
    | Option.none => Option.none

/-- First-match lookup in the analyzer memo (`analyzeCache.get`). -/
def memoLookup : List (String × PkgData) → String → Option PkgData
  | [], _ => Option.none
  | (k, v) :: rest, key => if k = key then some v else memoLookup rest key

/-- Replace-or-append in the analyzer memo (`analyzeCache.set`; a re-entrant
shared stub's entry is overwritten by the full node's entry, as in JS). -/
def memoSet (m : List (String × PkgData)) (key : String) (v : PkgData) :
    List (String × PkgData) :=
  match m with
  | [] => [(key, v)]
  | (k, v0) :: rest =>
    if k = key then (k, v) :: rest else (k, v0) :: memoSet rest key v

/-- The status/per-framework-version classification of `analyzePackageImpl`
(the non-cyclic part of the function after the dependency recursion), as a
standalone function of the node data and its blocked-dependency count. -/
def classifyPackage (env : AnalyzeEnv) (fws : List String) (isMultiTfm : Bool)
    (d : PkgData) (blockerCount : Nat) :
    Status × Option (List PerFrameworkVersion) :=
  let frameworkCompatibility :=
    fws.map (isFrameworkSupportedDetailed d.targetFrameworks)
  let allSupported := frameworkCompatibility.all (·.supported)
  let noneSupported := frameworkCompatibility.all fun fc => !fc.supported
  let someSupported := !allSupported && !noneSupported
  if noneSupported then (.blocked, Option.none)
  else if allSupported then
    (if 0 < blockerCount then .partial_ else .ready, Option.none)
  else if someSupported && isMultiTfm then
    let unsupported := frameworkCompatibility.filter fun fc => !fc.supported
    let supported := frameworkCompatibility.filter (·.supported)
    let current : List PerFrameworkVersion :=
      supported.map fun fc => ⟨fc.framework, d.version⟩
    (match searchUnsupported env d.id d.availableVersions unsupported with
    | some found => (.split, some (current ++ found))
    | Option.none => (.blocked, Option.none))
  else (.blocked, Option.none)

mutual
/-- `analyzePackageImpl` from the source in sequential semantics: analyze the
dependencies first (post-order; the memo entry for this node is written after
its subtree completes, matching when the JS `analyzeCache.set` line runs
relative to the synchronous descent), then classify. -/
def analyzePackageImpl (env : AnalyzeEnv) (fws : List String) (isMultiTfm : Bool) :
    MigrationPackage → List (String × PkgData) →
    MigrationPackage × List (String × PkgData)
  | .mk d deps, st =>
    let r1 := analyzeDeps env fws isMultiTfm deps st
    let analyzedDeps := r1.1
    let blockerCount :=
      (analyzedDeps.filter fun dp => dp.status == Status.blocked).length
    if d.isCyclic then
      let res : PkgData := { d with status := .blocked, blockerCount := blockerCount }
      (.mk res analyzedDeps, memoSet r1.2 (lower d.id) res)
    else
      let classified := classifyPackage env fws isMultiTfm d blockerCount
      let res : PkgData :=
        { d with
          status := classified.1
          blockerCount := blockerCount
          frameworkCompatibility :=
            some (fws.map (isFrameworkSupportedDetailed d.targetFrameworks))
          perFrameworkVersions := classified.2 }
      (.mk res analyzedDeps, memoSet r1.2 (lower d.id) res)
/-- The `pkg.dependencies.map(analyzePackage)` fan-out, sequentialized: each
dependency first consults the memo (returning a shared-reference stub of the
cached analysis) and otherwise runs `analyzePackageImpl`. -/
def analyzeDeps (env : AnalyzeEnv) (fws : List String) (isMultiTfm : Bool) :
    List MigrationPackage → List (String × PkgData) →
    List MigrationPackage × List (String × PkgData)
  | [], st => ([], st)
  | p :: ps, st =>
    let r1 : MigrationPackage × List (String × PkgData) :=
      match memoLookup st (lower p.id) with
      | some cached =>
        (.mk { cached with depth := p.data.depth, isSharedReference := true } [], st)
      | Option.none => analyzePackageImpl env fws isMultiTfm p st
    let r2 := analyzeDeps env fws isMultiTfm ps r1.2
    (r1.1 :: r2.1, r2.2)
end

/-- `analyzeAllPackages` from the source (sequential semantics; progress
reporting dropped).  `allFrameworks = [...new Set([target, ...current])]`. -/
def analyzeAllPackages (env : AnalyzeEnv) (packages : List MigrationPackage)
    (targetFramework : String) (currentFrameworks : List String) :
    List MigrationPackage :=
  let allFrameworks := dedupStr (targetFramework :: currentFrameworks)
  let isMultiTfm := decide (1 < allFrameworks.length)
  (analyzeDeps env allFrameworks isMultiTfm packages []).1

/-! ### Claim-level view of split resolution (C5) -/
/-- Claim wording: the newest entry of the available-versions list (newest
first) whose own declared frameworks support the target — the first hit of a
newest-to-oldest scan, where a version whose details fetch fails cannot
match. -/
def specCompatibleVersion (env : AnalyzeEnv) (packageId : String)
    (availableVersions : List String) (fw : String) : Option String :=
  availableVersions.find? fun version =>
    match env.getPackageDetails packageId version with
    | some details => isFrameworkSupported (frameworksOfDetails details) fw
    | Option.none => false

/-- The per-framework compatibility list computed by `analyzePackageImpl`. -/
def fcsOf (d : PkgData) (fws : List String) : List FrameworkCompatibility :=
  fws.map (isFrameworkSupportedDetailed d.targetFrameworks)

/-- Registry fixture for the split-detection example: package `P` supports
`net8.0` at 2.0.0 and `net6.0` at the older 1.0.0. -/
def exEnvC5 : AnalyzeEnv :=
  ⟨[(("P", "2.0.0"), ⟨some [⟨some "net8.0", Option.none⟩]⟩),
    (("P", "1.0.0"), ⟨some [⟨some "net6.0", Option.none⟩]⟩)]⟩

/-- Node fixture for the split-detection example. -/
def exPkgC5 : PkgData :=
  ⟨"P", "2.0.0", ["2.0.0", "1.0.0"], false, 0, ["net8.0"], .ready, 0, -1,
    false, false, Option.none, Option.none⟩

/-! ## Dependency tree loader (`loadDependencyTree`)

Sequential semantics of the concurrent loader (see the header comment).  The
registry and the metadata cache are finite response tables; the internal-mask
regex is the abstract matcher `isInternal` (spec §9 reframes the glob-to-regex
matching as a `matches(id) → bool` capability).  `cacheSet` writes are not
represented: within one run a `migration:<key>` entry is read only before the
single write to the same key, so the writes are never observed. -/
/-- The source's `CachedPackageData` cache record. -/
structure CachedPackageData where
  id : String
  version : String
  availableVersions : List String
  targetFrameworks : List String
  dependencyIds : List Dependency
deriving Repr, DecidableEq

/-- The loader's environment: registry response tables, the metadata cache
contents, the internal-mask matcher and the dev-version filter. -/
structure LoaderEnv where
  versionsList : List (String × List String)
  detailsList : List ((String × String) × PackageDetails)
  cacheList : List (String × CachedPackageData)
  isInternal : String → Bool
  devVersionFilter : String

/-- `getPackageVersions` — an absent entry is a fetch that throws. -/
def LoaderEnv.getPackageVersions (env : LoaderEnv) (packageId : String) :
    Option (List String) :=
  env.versionsList.lookup packageId

/-- `getPackageDetails` — an absent entry is a fetch that throws. -/
def LoaderEnv.getPackageDetails (env : LoaderEnv) (packageId version : String) :
    Option PackageDetails :=
  env.detailsList.lookup (packageId, version)

/-- `cacheGet("migration:" + cacheKey)`. -/
def LoaderEnv.cacheGet (env : LoaderEnv) (cacheKey : String) :
    Option CachedPackageData :=
  env.cacheList.lookup cacheKey

/-- JS string truthiness: the empty string is falsy. -/
def truthyStr : Option String → Option String
  | some "" => Option.none
  | o => o

/-- The version-selection block of `loadPackageImpl`:
`requested > dev-filter match > latest stable > first available > "unknown"`,
with every `||` step dropping an empty string as JS truthiness does. -/
def pickVersion (devVersionFilter : String) (versions : List String)
    (requestedVersion : Option String) : String :=
  match truthyStr requestedVersion with
  | some r => r
  | Option.none =>
    let devMatch :=
      if devVersionFilter ≠ "" then
        versions.find? fun v =>
          containsSubstr v "-" && containsSubstr (lower v) (lower devVersionFilter)
      else Option.none
    match truthyStr devMatch with
    | some v => v
    | Option.none =>
      match truthyStr (versions.find? fun v => !containsSubstr v "-") with
      | some v => v
      | Option.none =>
        match truthyStr versions.head? with
        | some v => v
        | Option.none => "unknown"

/-- The `dependencyIds` collection loop of `loadPackageImpl`: flatten all
groups, keeping the first occurrence of each id (case-insensitive); only the
id is kept (`dependencyIds.push({ id: dep.id })`). -/
def collectDepIds (groups : List DependencyGroup) : List Dependency :=
  groups.foldl
    (fun acc g =>
      match g.dependencies with
      | Option.none => acc
      | some ds =>
        ds.foldl
          (fun acc dep =>
            if acc.any fun d0 => lower d0.id == lower dep.id then acc
            else acc ++ [⟨dep.id, Option.none⟩])
          acc)
    []

/-- The metadata a node is built from. -/
structure LoadedCore where
  version : String
  versions : List String
  targetFrameworks : List String
  dependencyIds : List Dependency
  didFetch : Bool
deriving Repr, DecidableEq

/-- The data-acquisition half of `loadPackageImpl`: cached metadata when the
cache has the key, otherwise the fetch path with its two `try`/`catch`
fallbacks (`versions = requestedVersion ? [requestedVersion] : []`, empty
dependency groups), version selection, framework collection
(`[...new Set(...)]`) and dependency-id collection. -/
def loadCore (env : LoaderEnv) (packageId cacheKey : String)
    (requestedVersion : Option String) : LoadedCore :=
  match env.cacheGet cacheKey with
  | some cachedData =>
    ⟨cachedData.version, cachedData.availableVersions,
      cachedData.targetFrameworks, cachedData.dependencyIds, false⟩
  | Option.none =>
    let versions :=
      match env.getPackageVersions packageId with
      | some vs => vs
      | Option.none =>
        match truthyStr requestedVersion with
        | some r => [r]
        | Option.none => []
    let version := pickVersion env.devVersionFilter versions requestedVersion
    let dependencyGroups :=
      match env.getPackageDetails packageId version with
      | some details => details.dependencyGroups.getD []
      | Option.none => []
    let targetFrameworks := dedupStr (frameworksOfDetails ⟨some dependencyGroups⟩)
    ⟨version, versions, targetFrameworks, collectDepIds dependencyGroups, true⟩

/-- The loader's shared mutable state: the `visited` map (key → the node data
stored by `visited.set`) and the trace of cache keys whose metadata was
fetched from the registry (for the fetch-at-most-once claim). -/
structure LoaderState where
  visited : List (String × PkgData)
  fetched : List String
deriving Repr

/-- The node object created by `loadPackageImpl` (before dependencies are
pushed): fresh nodes are `status: "ready"`, `blockerCount: 0`,
`migrationOrder: -1`, with `availableVersions` capped to 10. -/
def freshNode (env : LoaderEnv) (packageId : String) (core : LoadedCore)
    (depth : Nat) : PkgData :=
  ⟨packageId, core.version, core.versions.take 10, env.isInternal packageId,
    depth, core.targetFrameworks, .ready, 0, -1, false, false,
    Option.none, Option.none⟩

/-- The shared-reference copy `{...existing, depth, dependencies: [],
isSharedReference: true}`. -/
def sharedStub (existing : PkgData) (depth : Nat) : MigrationPackage :=
  .mk { existing with depth := depth, isSharedReference := true } []

/-- The synthesized cyclic node of the ancestor check (`version:
requestedVersion || "unknown"`, `status: "blocked"`, `isCyclic: true`). -/
def cyclicNode (env : LoaderEnv) (packageId : String)
    (requestedVersion : Option String) (depth : Nat) : PkgData :=
  ⟨packageId, (truthyStr requestedVersion).getD "unknown", [],
    env.isInternal packageId, depth, [], .blocked, 0, -1, true, false,
    Option.none, Option.none⟩

mutual
/-- `loadPackage` from the source: visited check (shared reference), then the
ancestor/cycle check, then the load itself.  The fuel argument only bounds the
recursion depth; `loadDependencyTree` supplies enough for it never to run out
(`loadDependencyTree_total`). -/
def loadPackage (env : LoaderEnv) :
    Nat → String → Nat → Option String → List String → LoaderState →
    Option (MigrationPackage × LoaderState)
  | 0, _, _, _, _, _ => Option.none
  | fuel + 1, packageId, depth, requestedVersion, ancestors, st =>
    let cacheKey := lower packageId
    match memoLookup st.visited cacheKey with
    | some existing => some (sharedStub existing depth, st)
    | Option.none =>
      if ancestors.contains cacheKey then
        some (.mk (cyclicNode env packageId requestedVersion depth) [], st)
      else
        loadPackageImpl env fuel packageId cacheKey depth requestedVersion
          (cacheKey :: ancestors) st
/-- `loadPackageImpl` from the source: acquire the metadata, register the node
in `visited` (before any recursion), then load the dependencies and attach
them. -/
def loadPackageImpl (env : LoaderEnv) :
    Nat → String → String → Nat → Option String → List String → LoaderState →
    Option (MigrationPackage × LoaderState)
  | 0, _, _, _, _, _, _ => Option.none
  | fuel + 1, packageId, cacheKey, depth, requestedVersion, ancestors, st =>
    let core := loadCore env packageId cacheKey requestedVersion
    let pkg0 := freshNode env packageId core depth
    let st1 : LoaderState :=
      ⟨st.visited ++ [(cacheKey, pkg0)],
        if core.didFetch then st.fetched ++ [cacheKey] else st.fetched⟩
    match loadDeps env fuel core.dependencyIds (depth + 1) ancestors st1 with
    | some (children, st2) => some (.mk pkg0 children, st2)
    | Option.none => Option.none
/-- The recursive dependency fan-out (dependencies are requested without an
explicit version, exactly as `loadPackage(dep.id, depth + 1, undefined,
ancestors)` — nothing in the source ever passes a requested version). -/
def loadDeps (env : LoaderEnv) :
    Nat → List Dependency → Nat → List String → LoaderState →
    Option (List MigrationPackage × LoaderState)
  | 0, _, _, _, _ => Option.none
  | _ + 1, [], _, _, st => some ([], st)
  | fuel + 1, dep :: rest, depth, ancestors, st =>
    match loadPackage env fuel dep.id depth Option.none ancestors st with
    | Option.none => Option.none
    | some (child, st1) =>
      match loadDeps env fuel rest depth ancestors st1 with
      | Option.none => Option.none
      | some (children, st2) => some (child :: children, st2)
end

/-- All ids the loader can ever recurse into (lower-cased): the root ids plus
every dependency id mentioned in a cache entry or a details response. -/
def idSpace (env : LoaderEnv) (roots : List String) : List String :=
  roots.map lower
    ++ (env.cacheList.flatMap fun e => e.2.dependencyIds.map fun d => lower d.id)
    ++ (env.detailsList.flatMap fun e =>
      (e.2.dependencyGroups.getD []).flatMap fun g =>
        (g.dependencies.getD []).map fun d => lower d.id)

/-- Upper bound on the `dependencyIds` length any `loadCore` call can
produce: the largest cache-entry dependency list and the largest total
dependency count of a details response. -/
def maxDepsCount (env : LoaderEnv) : Nat :=
  max
    ((env.cacheList.map fun e => e.2.dependencyIds.length).foldr max 0)
    ((env.detailsList.map fun e =>
      ((e.2.dependencyGroups.getD []).flatMap fun g =>
        g.dependencies.getD []).length).foldr max 0)

/-- Fuel budget that `loadDependencyTree` hands the recursion — enough for the
loop over at most `|idSpace|` fresh packages, each opening at most
`maxDepsCount` child loads. -/
def loaderFuel (env : LoaderEnv) (roots : List String) : Nat :=
  (idSpace env roots).dedup.length * (maxDepsCount env + 2) + roots.length + 2

/-- `loadDependencyTree` from the source: load every root in order (depth 0,
no requested version, empty ancestor chain) against an initially empty
`visited` map; `null` results cannot occur (`loadPackageImpl` always produces
a node), so the result filter is the identity. -/
def loadDependencyTree (env : LoaderEnv) (packageIds : List String) :
    Option (List MigrationPackage × LoaderState) :=
  loadDeps env (loaderFuel env packageIds)
    (packageIds.map fun id => ⟨id, Option.none⟩) 0 [] ⟨[], []⟩

/-- Number of ids of a space not yet in the visited key list — the quantity
the loader strictly decreases every time it opens a fresh package. -/
def unvisitedCount (space keys : List String) : Nat :=
  (space.dedup.filter fun k => !(keys.contains k)).length

/-- The data of a shared-reference copy: `{...existing, depth,
isSharedReference: true}` (`dependencies` is handled at the node level). -/
def sharedOf (d0 : PkgData) (depth : Nat) : PkgData :=
  { d0 with
    depth := depth
    isSharedReference := true }

mutual
/-- Canonical-tree scan: walks a tree in preorder against the map of already
materialised nodes.  A node whose key is present must be a shared stub of the
recorded entry (empty dependencies); a fresh node records its data and its
subtrees continue the scan.  `loadPackage` produces exactly the trees this
scan accepts, with `vs` mirroring the `visited` map. -/
def cT (vs : List (String × PkgData)) : MigrationPackage →
    Option (List (String × PkgData))
  | .mk d deps =>
    match memoLookup vs (lower d.id) with
    | some d0 =>
      if d = sharedOf d0 d.depth then
        if deps = [] then some vs else Option.none
      else Option.none
    | Option.none => cL (vs ++ [(lower d.id, d)]) deps
/-- Forest version of `cT`, threading the map left to right. -/
def cL (vs : List (String × PkgData)) : List MigrationPackage →
    Option (List (String × PkgData))
  | [] => some vs
  | p :: rest =>
    match cT vs p with
    | Option.none => Option.none
    | some vs' => cL vs' rest
end

/-- Loader-state well-formedness: the `visited` map has pairwise-distinct keys,
each key is the lower-cased id of its node, and the fetch trace is
duplicate-free and only mentions visited keys. -/
def WfSt (st : LoaderState) : Prop :=
  (st.visited.map (·.1)).Nodup
  ∧ (∀ e ∈ st.visited, e.1 = lower e.2.id)
  ∧ st.fetched.Nodup
  ∧ (∀ k ∈ st.fetched, k ∈ st.visited.map (·.1))

/-- Every entry a loader run appends to `visited` is a fresh node built by
`freshNode` from a `loadCore` acquisition, keyed by its lower-cased id. -/
def EntriesOk (env : LoaderEnv) (Δ : List (String × PkgData)) : Prop :=
  ∀ e ∈ Δ, ∃ pid req depth2,
    e.1 = lower pid ∧ e.2 = freshNode env pid (loadCore env pid (lower pid) req) depth2

/-- The A→B→A cycle registry: both packages resolve to 1.0.0 and each lists
the other as its sole dependency. -/
def cycEnv : LoaderEnv :=
  ⟨[("A", ["1.0.0"]), ("B", ["1.0.0"])],
   [(("A", "1.0.0"), ⟨some [⟨some "net8.0", some [⟨"B", Option.none⟩]⟩]⟩),
    (("B", "1.0.0"), ⟨some [⟨some "net8.0", some [⟨"A", Option.none⟩]⟩]⟩)],
   [], (fun _ => true), ""⟩

/-- Two roots sharing one leaf dependency: A→C, B→C, C has no dependencies. -/
def diamondEnv : LoaderEnv :=
  ⟨[("A", ["1.0.0"]), ("B", ["1.0.0"]), ("C", ["1.0.0"])],
   [(("A", "1.0.0"), ⟨some [⟨some "net8.0", some [⟨"C", Option.none⟩]⟩]⟩),
    (("B", "1.0.0"), ⟨some [⟨some "net8.0", some [⟨"C", Option.none⟩]⟩]⟩),
    (("C", "1.0.0"), ⟨some [⟨some "net8.0", some []⟩]⟩)],
   [], (fun _ => true), ""⟩

/-- A registry where every lookup fails and the cache is empty. -/
def failEnv : LoaderEnv := ⟨[], [], [], (fun _ => true), ""⟩

/-- The claim's version-selection policy, word for word: dev-filter prerelease
match, else first version without a prerelease marker, else first available
version, else the literal string `"unknown"` on an empty list — with no
truthiness dropping of empty strings. -/
def specVersionChoice (devVersionFilter : String) (versions : List String) :
    String :=
  match (if devVersionFilter ≠ "" then
      versions.find? fun v =>
        containsSubstr v "-" && containsSubstr (lower v) (lower devVersionFilter)
    else Option.none) with
  | some v => v
  | Option.none =>
    match versions.find? fun v => !containsSubstr v "-" with
    | some v => v
    | Option.none =>
      match versions.head? with
      | some v => v
      | Option.none => "unknown"

/-- A registry answering `[""]` for package P. -/
def emptyVerEnv : LoaderEnv := ⟨[("P", [""])], [], [], (fun _ => true), ""⟩

/-- A registry with a prerelease matching the dev filter `beta`. -/
def c6Env : LoaderEnv :=
  ⟨[("P", ["2.0.0-beta", "1.5.0"])], [], [], (fun _ => true), "beta"⟩

mutual
/-- `visit(pkg)` of `calculateMigrationOrder`: skip if the key was already
pushed (`visited`) or is on the current recursion stack (`visiting`,
modelled by the explicit `path` of ancestor keys); otherwise visit the
dependencies with the key pushed on the stack, then append the package id
(postorder push). -/
def visitP (path order : List String) : MigrationPackage → List String
  | .mk d deps =>
    if (order.map lower).contains (lower d.id) then order
    else if path.contains (lower d.id) then order
    else visitL (lower d.id :: path) order deps ++ [d.id]
/-- The `for (const dep of pkg.dependencies) visit(dep)` loop (also the
top-level `for (const pkg of packages) visit(pkg)`). -/
def visitL (path order : List String) : List MigrationPackage → List String
  | [] => order
  | p :: rest => visitL path (visitP path order p) rest
end

/-- `calculateMigrationOrder` from the source: DFS over the forest with empty
`visited`/`visiting`, returning the postorder id list (`packageMap` in the
source is built but never read). -/
def calculateMigrationOrder (packages : List MigrationPackage) : List String :=
  visitL [] [] packages

/-- JS `Array.prototype.indexOf`: first position of `x`, `-1` when absent. -/
def jsIndexOf : List String → String → Int
  | [], _ => -1
  | a :: t, x =>
    if a = x then 0
    else if jsIndexOf t x = -1 then -1 else jsIndexOf t x + 1

/-- The `assignOrder` update of one node's data: `idx = order.indexOf(pkg.id)`
and `migrationOrder = idx + 1` when `idx !== -1`, untouched otherwise. -/
def assignData (order : List String) (d : PkgData) : PkgData :=
  if jsIndexOf order d.id ≠ -1 then
    { d with migrationOrder := jsIndexOf order d.id + 1 }
  else d

mutual
/-- `assignOrder` over one tree. -/
def assignT (order : List String) : MigrationPackage → MigrationPackage
  | .mk d deps => .mk (assignData order d) (assignF order deps)
/-- `assignOrder` over the forest. -/
def assignF (order : List String) : List MigrationPackage → List MigrationPackage
  | [] => []
  | p :: rest => assignT order p :: assignF order rest
end

mutual
/-- All (parent id, child id, parent's ancestor-key chain) edges of a tree. -/
def edgesT (anc : List String) : MigrationPackage →
    List (String × String × List String)
  | .mk d deps =>
    (deps.map fun c => (d.id, c.id, anc)) ++ edgesF (lower d.id :: anc) deps
/-- All edges of a forest. -/
def edgesF (anc : List String) : List MigrationPackage →
    List (String × String × List String)
  | [] => []
  | p :: rest => edgesT anc p ++ edgesF anc rest
end

/-- A three-package chain A→B→C. -/
def chainEnv : LoaderEnv :=
  ⟨[("A", ["1.0.0"]), ("B", ["1.0.0"]), ("C", ["1.0.0"])],
   [(("A", "1.0.0"), ⟨some [⟨some "net8.0", some [⟨"B", Option.none⟩]⟩]⟩),
    (("B", "1.0.0"), ⟨some [⟨some "net8.0", some [⟨"C", Option.none⟩]⟩]⟩),
    (("C", "1.0.0"), ⟨some [⟨some "net8.0", some []⟩]⟩)],
   [], (fun _ => true), ""⟩

/-! ### Compatibility engine lemmas -/
/-- Every parse result has one of the three known families. -/
theorem parse_family_cases (tfm : String) (p : ParsedTfm)
    (h : parseFrameworkVersion tfm = some p) :
    p.family = "net" ∨ p.family = "netcoreapp" ∨ p.family = "netstandard" := by
  unfold parseFrameworkVersion at h
  split at h
  · rw [Option.map_eq_some'] at h
    obtain ⟨a, -, hpe⟩ := h
    rw [← hpe]; simp
  · split at h
    · rw [Option.map_eq_some'] at h
      obtain ⟨a, -, hpe⟩ := h
      rw [← hpe]; simp
    · split at h
      · rw [Option.map_eq_some'] at h
        obtain ⟨a, -, hpe⟩ := h
        rw [← hpe]; simp
      · exact absurd h (by simp)

/-- One loop step of the scan updates `bestDirect.isSome` and `hasNetstandard`
exactly according to the two per-moniker predicates. -/
theorem scanStep_char (q : ParsedTfm) (st : Option (String × Nat) × Bool)
    (tfm : String) :
    (scanStep q st tfm).1.isSome = (st.1.isSome || directPred q tfm)
    ∧ (scanStep q st tfm).2 = (st.2 || netstdPred q tfm) := by
  unfold scanStep directPred netstdPred
  cases hp : parseFrameworkVersion tfm with
  | none => simp
  | some p =>
    cases hstd : (p.family == "netstandard") with
    | true =>
      cases htq : (q.family == "net" || q.family == "netcoreapp") with
      | true => simp [hstd, htq]
      | false => simp [hstd, htq]
    | false =>
      cases hch : isInDirectChain p q with
      | false => simp [hstd, hch]
      | true =>
        cases hb : st.1 with
        | none => simp [hstd, hch, hb]
        | some best =>
          by_cases hcmp : 0 < comparePrecedence (tfm, p.version) best <;>
            simp [hstd, hch, hb, hcmp]

theorem scan_fold_characterization (q : ParsedTfm) (fws : List String) :
    ∀ (b0 : Option (String × Nat)) (h0 : Bool),
      ((fws.foldl (scanStep q) (b0, h0)).1.isSome
          = (b0.isSome || fws.any (directPred q)))
      ∧ ((fws.foldl (scanStep q) (b0, h0)).2 = (h0 || fws.any (netstdPred q))) := by
  induction fws with
  | nil => intro b0 h0; simp
  | cons f fws ih =>
    intro b0 h0
    have hstep := scanStep_char q (b0, h0) f
    have hrest := ih (scanStep q (b0, h0) f).1 (scanStep q (b0, h0) f).2
    rw [Prod.mk.eta] at hrest
    simp only [List.foldl_cons, List.any_cons]
    constructor
    · rw [hrest.1, hstep.1]
      cases b0.isSome <;> cases directPred q f <;> simp
    · rw [hrest.2, hstep.2]
      cases h0 <;> cases netstdPred q f <;> simp

/-- `directPred` agrees with the claim-level direct-match condition. -/
theorem directPred_eq_spec (q : ParsedTfm) (t f : String)
    (ht : parseFrameworkVersion t = some q) :
    directPred q f
      = (match parseFrameworkVersion f, parseFrameworkVersion t with
        | some p, some q =>
          ((p.family == "net" || p.family == "netcoreapp")
            && p.family == q.family && p.version ≤ q.version)
          || (p.family == "netcoreapp" && q.family == "net" && 5 ≤ q.version)
        | _, _ => false) := by
  rw [ht]
  unfold directPred
  cases hp : parseFrameworkVersion f with
  | none => simp
  | some p =>
    simp only [isInDirectChain]
    rcases parse_family_cases f p hp with hf | hf | hf <;>
      simp [hf] <;>
      by_cases h1 : p.version ≤ q.version <;>
      by_cases h2 : q.family = "net" <;>
      by_cases h3 : 5 ≤ q.version <;>
      by_cases h4 : p.family = q.family <;>
      simp_all <;> omega

/-- Congruence for `List.any` under a pointwise-equal predicate. -/
theorem any_congr {α : Type} {l : List α} {p q : α → Bool}
    (h : ∀ a ∈ l, p a = q a) : l.any p = l.any q := by
  induction l with
  | nil => simp
  | cons a l ih =>
    simp only [List.any_cons, h a (by simp)]
    rw [ih fun b hb => h b (by simp [hb])]

/-- Distributing a constant conjunct out of `List.any`. -/
theorem any_and_const {α : Type} (l : List α) (p : α → Bool) (c : Bool) :
    (l.any fun a => p a && c) = (l.any p && c) := by
  induction l with
  | nil => simp
  | cons a l ih =>
    simp only [List.any_cons, ih]
    cases p a <;> cases c <;> cases l.any p <;> simp

/-- The source compatibility function equals the claim-level classification. -/
theorem compat_eq_spec (fws : List String) (t : String) :
    isFrameworkSupportedDetailed fws t
      = ⟨t, (specCompatClassification fws t).1, (specCompatClassification fws t).2⟩ := by
  unfold isFrameworkSupportedDetailed specCompatClassification
  by_cases hempty : fws = []
  · simp [hempty]
  · simp only [List.isEmpty_iff, hempty, if_false]
    cases ht : parseFrameworkVersion t with
    | none =>
      have hd : specDirectMatch fws t = false := by
        unfold specDirectMatch
        simp only [List.any_eq_false]
        intro f _
        cases parseFrameworkVersion f <;> simp [ht]
      have hn : specNetstandardMatch fws t = false := by
        unfold specNetstandardMatch
        simp [ht]
      simp [hd, hn]
    | some q =>
      have hchar := scan_fold_characterization q fws Option.none false
      have hd : (scanTfms q fws).1.isSome = specDirectMatch fws t := by
        show ((fws.foldl (scanStep q) (Option.none, false)).1.isSome = _)
        rw [hchar.1]
        simp only [Option.isSome_none, Bool.false_or]
        unfold specDirectMatch
        exact any_congr fun f _ => directPred_eq_spec q t f ht
      have hstd : (scanTfms q fws).2 = specNetstandardMatch fws t := by
        show ((fws.foldl (scanStep q) (Option.none, false)).2 = _)
        rw [hchar.2]
        simp only [Bool.false_or]
        have hpoint : ∀ f, netstdPred q f
            = ((match parseFrameworkVersion f with
                | some p => p.family == "netstandard"
                | Option.none => false)
              && (q.family == "net" || q.family == "netcoreapp")) := by
          intro f
          unfold netstdPred
          cases parseFrameworkVersion f <;> simp
        rw [any_congr fun f _ => hpoint f,
          any_and_const fws _ (q.family == "net" || q.family == "netcoreapp")]
        unfold specNetstandardMatch
        rw [ht]
      simp only [hd, hstd]
      by_cases hsd : specDirectMatch fws t = true
      · simp [hsd]
      · simp only [Bool.not_eq_true] at hsd
        by_cases hsn : specNetstandardMatch fws t = true
        · simp [hsd, hsn]
        · simp only [Bool.not_eq_true] at hsn
          simp [hsd, hsn]

/-- C4: for every declared-framework list and target, the compatibility
classification of `isFrameworkSupportedDetailed` follows the spec rule — empty
list ⇒ `portable`/supported; a declared `net`/`netcoreapp` moniker of the same
family with version ≤ target, or a `netcoreapp` moniker against `net` ≥ 5 ⇒
`direct`/supported; otherwise a declared `netstandard*` moniker against a
`net`/`netcoreapp` target ⇒ `netstandard`/supported; otherwise `none`/
unsupported — including the four concrete examples. -/
theorem C4_compat_classification :
    (∀ (fws : List String) (t : String),
      isFrameworkSupportedDetailed fws t
        = ⟨t, (specCompatClassification fws t).1, (specCompatClassification fws t).2⟩)
    ∧ isFrameworkSupportedDetailed ["net6.0"] "net8.0"
        = ⟨"net8.0", true, CompatibilityMode.direct⟩
    ∧ isFrameworkSupportedDetailed ["netstandard2.0"] "net8.0"
        = ⟨"net8.0", true, CompatibilityMode.netstandard⟩
    ∧ isFrameworkSupportedDetailed ["net9.0"] "net6.0"
        = ⟨"net6.0", false, CompatibilityMode.none⟩
    ∧ ∀ t : String, isFrameworkSupportedDetailed [] t
        = ⟨t, true, CompatibilityMode.portable⟩ := by
  refine ⟨compat_eq_spec, by decide, by decide, by decide, fun t => ?_⟩
  simp [isFrameworkSupportedDetailed]

/-- C10: a target moniker in the `netstandard` family is unsatisfiable for any
non-empty declared-framework list — declared `netstandard` monikers are only
credited against `net`/`netcoreapp` targets, and declared `net`/`netcoreapp`
monikers never match a `netstandard` target. -/
theorem C10_netstandard_target_unsatisfiable (fws : List String) (t : String)
    (q : ParsedTfm) (h1 : fws ≠ []) (h2 : parseFrameworkVersion t = some q)
    (h3 : q.family = "netstandard") :
    isFrameworkSupportedDetailed fws t = ⟨t, false, CompatibilityMode.none⟩ := by
  rw [compat_eq_spec]
  have hn : specNetstandardMatch fws t = false := by
    unfold specNetstandardMatch
    rw [h2]
    simp [h3]
  have hd : specDirectMatch fws t = false := by
    unfold specDirectMatch
    simp only [List.any_eq_false]
    intro f _
    rw [h2]
    cases hp : parseFrameworkVersion f with
    | none => simp
    | some p =>
      rcases parse_family_cases f p hp with hf | hf | hf <;> simp [hf, h3]
  unfold specCompatClassification
  simp [h1, hd, hn]

/-- Witness for C10 at `["netstandard2.0"]` against target `netstandard2.1`:
even an exact-or-lower declared netstandard version is rejected. -/
theorem C10_netstandard_target_unsatisfiable_witness :
    (["netstandard2.0"] : List String) ≠ []
    ∧ parseFrameworkVersion "netstandard2.1" = some ⟨"netstandard", 21⟩
    ∧ isFrameworkSupportedDetailed ["netstandard2.0"] "netstandard2.1"
        = ⟨"netstandard2.1", false, CompatibilityMode.none⟩ :=
  ⟨by decide, by decide,
    C10_netstandard_target_unsatisfiable ["netstandard2.0"] "netstandard2.1"
      ⟨"netstandard", 21⟩ (by decide) (by decide) rfl⟩

theorem assocGet_upsert (m : List (String × List VersionRequest)) (k : String)
    (r : VersionRequest) (key : String) :
    assocGet (upsertRequest m k r) key
      = if key = k then assocGet m key ++ [r] else assocGet m key := by
  induction m with
  | nil =>
    by_cases h : key = k
    · subst h; simp [upsertRequest, assocGet]
    · have h2 : ¬ k = key := fun hh => h hh.symm
      simp [upsertRequest, assocGet, h, h2]
  | cons e rest ih =>
    obtain ⟨k1, rs⟩ := e
    by_cases h1 : k1 = k
    · subst h1
      by_cases h2 : key = k1
      · subst h2; simp [upsertRequest, assocGet]
      · have h3 : ¬ k1 = key := fun hh => h2 hh.symm
        simp [upsertRequest, assocGet, h2, h3]
    · by_cases h2 : k1 = key
      · have h3 : ¬ key = k := fun hh => h1 (h2.trans hh)
        simp [upsertRequest, assocGet, h1, h2, h3]
      · simp [upsertRequest, assocGet, h1, h2, ih]

theorem keys_upsert (m : List (String × List VersionRequest)) (k : String)
    (r : VersionRequest) :
    (upsertRequest m k r).map (·.1)
      = if k ∈ m.map (·.1) then m.map (·.1) else m.map (·.1) ++ [k] := by
  induction m with
  | nil => simp [upsertRequest]
  | cons e rest ih =>
    obtain ⟨k1, rs⟩ := e
    by_cases h1 : k1 = k
    · simp [upsertRequest, h1]
    · have h1s : ¬ k = k1 := fun h => h1 h.symm
      simp only [upsertRequest, if_neg h1, List.map_cons, List.mem_cons]
      rw [ih]
      by_cases h2 : k ∈ rest.map (·.1) <;> simp [h2, h1s]

theorem upsert_values_ne (m : List (String × List VersionRequest)) (k : String)
    (r : VersionRequest) (hne : ∀ e ∈ m, e.2 ≠ []) :
    ∀ e ∈ upsertRequest m k r, e.2 ≠ [] := by
  induction m with
  | nil =>
    intro e he
    simp only [upsertRequest, List.mem_singleton] at he
    simp [he]
  | cons e1 rest ih =>
    obtain ⟨k1, rs⟩ := e1
    intro e he
    by_cases h1 : k1 = k
    · simp only [upsertRequest, if_pos h1, List.mem_cons] at he
      rcases he with he | he
      · subst he; simp
      · exact hne e (List.mem_cons_of_mem _ he)
    · simp only [upsertRequest, if_neg h1, List.mem_cons] at he
      rcases he with he | he
      · subst he; exact hne (k1, rs) (by simp)
      · exact ih (fun e2 he2 => hne e2 (List.mem_cons_of_mem _ he2)) e he

theorem wf_upsert (m : List (String × List VersionRequest)) (k : String)
    (r : VersionRequest) (hwf : WfReqMap m) : WfReqMap (upsertRequest m k r) := by
  obtain ⟨hnd, hne⟩ := hwf
  refine ⟨?_, upsert_values_ne m k r hne⟩
  rw [keys_upsert]
  by_cases h : k ∈ m.map (·.1)
  · simpa [h] using hnd
  · simp only [h, if_false]
    rw [List.nodup_append]
    refine ⟨hnd, List.nodup_singleton k, ?_⟩
    intro a ha hb
    simp only [List.mem_singleton] at hb
    subst hb
    exact h ha

mutual
theorem collect_assocGet : ∀ (p : MigrationPackage)
    (m : List (String × List VersionRequest)) (key : String),
    assocGet (collectVersions p m) key = assocGet m key ++ specRequests key p
  | .mk d deps => fun m key => by
    rw [show collectVersions (.mk d deps) m = collectVersionsDeps d.id deps m from rfl,
      collect_assocGet_deps d.id deps m key]
    rfl
theorem collect_assocGet_deps : ∀ (pid : String) (deps : List MigrationPackage)
    (m : List (String × List VersionRequest)) (key : String),
    assocGet (collectVersionsDeps pid deps m) key
      = assocGet m key ++ specRequestsDeps key pid deps
  | _, [] => fun m key => by simp [collectVersionsDeps, specRequestsDeps]
  | pid, dep :: rest => fun m key => by
    rw [show collectVersionsDeps pid (dep :: rest) m
        = collectVersionsDeps pid rest
            (collectVersions dep
              (upsertRequest m (lower dep.id) ⟨pid, dep.version⟩)) from rfl,
      collect_assocGet_deps pid rest _ key, collect_assocGet dep _ key,
      assocGet_upsert,
      show specRequestsDeps key pid (dep :: rest)
        = (if lower dep.id = key then [⟨pid, dep.version⟩] else [])
          ++ specRequests key dep ++ specRequestsDeps key pid rest from rfl]
    by_cases h : key = lower dep.id
    · rw [if_pos h, if_pos h.symm]
      simp [List.append_assoc]
    · rw [if_neg h, if_neg fun hh => h hh.symm]
      simp [List.append_assoc]
end

mutual
theorem collect_wf : ∀ (p : MigrationPackage) (m : List (String × List VersionRequest)),
    WfReqMap m → WfReqMap (collectVersions p m)
  | .mk d deps => fun m h => collect_wf_deps d.id deps m h
theorem collect_wf_deps : ∀ (pid : String) (deps : List MigrationPackage)
    (m : List (String × List VersionRequest)),
    WfReqMap m → WfReqMap (collectVersionsDeps pid deps m)
  | _, [], _ => fun h => h
  | pid, dep :: rest, m => fun h =>
    collect_wf_deps pid rest _ (collect_wf dep _ (wf_upsert m _ _ h))
end

theorem foldl_collect_assocGet (packages : List MigrationPackage) :
    ∀ (m : List (String × List VersionRequest)) (key : String),
    assocGet (packages.foldl (fun m pkg => collectVersions pkg m) m) key
      = assocGet m key ++ specRequestsF key packages := by
  induction packages with
  | nil => intro m key; simp [specRequestsF]
  | cons p ps ih =>
    intro m key
    simp only [List.foldl_cons, specRequestsF]
    rw [ih, collect_assocGet, List.append_assoc]

theorem foldl_collect_wf (packages : List MigrationPackage) :
    ∀ (m : List (String × List VersionRequest)), WfReqMap m →
    WfReqMap (packages.foldl (fun m pkg => collectVersions pkg m) m) := by
  induction packages with
  | nil => intro m h; exact h
  | cons p ps ih => intro m h; exact ih _ (collect_wf p m h)

theorem assocGet_of_mem (m : List (String × List VersionRequest))
    (hnd : (m.map (·.1)).Nodup) (e : String × List VersionRequest) (he : e ∈ m) :
    assocGet m e.1 = e.2 := by
  induction m with
  | nil => cases he
  | cons e1 rest ih =>
    obtain ⟨k1, rs⟩ := e1
    have hnd2 : k1 ∉ rest.map (·.1) ∧ (rest.map (·.1)).Nodup := by
      rw [List.map_cons, List.nodup_cons] at hnd
      exact hnd
    rcases List.mem_cons.1 he with he | he
    · subst he; simp [assocGet]
    · have h1 : ¬ k1 = e.1 := by
        intro hq
        apply hnd2.1
        rw [hq]
        exact List.mem_map_of_mem (·.1) he
      rw [show assocGet ((k1, rs) :: rest) e.1
          = if k1 = e.1 then rs else assocGet rest e.1 from rfl, if_neg h1]
      exact ih hnd2.2 he

theorem mem_keys_iff_get (m : List (String × List VersionRequest))
    (hne : ∀ e ∈ m, e.2 ≠ []) (key : String) :
    key ∈ m.map (·.1) ↔ assocGet m key ≠ [] := by
  induction m with
  | nil => simp [assocGet]
  | cons e1 rest ih =>
    obtain ⟨k1, rs⟩ := e1
    have hmap : List.map (fun x => x.1) ((k1, rs) :: rest)
        = k1 :: rest.map (fun x => x.1) := by simp
    by_cases h : k1 = key
    · subst h
      rw [hmap]
      simp only [List.mem_cons, true_or, true_iff]
      rw [show assocGet ((k1, rs) :: rest) k1 = rs from by simp [assocGet]]
      exact hne (k1, rs) (by simp)
    · rw [show assocGet ((k1, rs) :: rest) key
          = if k1 = key then rs else assocGet rest key from rfl, if_neg h, hmap]
      simp only [List.mem_cons]
      rw [← ih fun e2 he2 => hne e2 (List.mem_cons_of_mem _ he2)]
      exact ⟨fun hc => hc.resolve_left fun hh => h hh.symm, Or.inr⟩

theorem conflicts_countP (m : List (String × List VersionRequest)) (k : String)
    (p : List VersionRequest → Bool) (hnd : (m.map (·.1)).Nodup) :
    (((m.filter fun e => p e.2).map fun e => VersionConflict.mk e.1 e.2).countP
        fun c => c.packageId == k)
      = if k ∈ m.map (·.1) ∧ p (assocGet m k) = true then 1 else 0 := by
  have hrw : ∀ mm : List (String × List VersionRequest),
      (((mm.filter fun e => p e.2).map fun e => VersionConflict.mk e.1 e.2).countP
        fun c => c.packageId == k)
      = mm.countP fun e => (e.1 == k) && p e.2 := by
    intro mm
    rw [List.countP_map, List.countP_filter]
    rfl
  rw [hrw]
  induction m with
  | nil => simp [assocGet]
  | cons e1 rest ih =>
    obtain ⟨k1, rs⟩ := e1
    have hnd2 : k1 ∉ rest.map (·.1) ∧ (rest.map (·.1)).Nodup := by
      rw [List.map_cons, List.nodup_cons] at hnd
      exact hnd
    have hrest := ih hnd2.2
    have hmap : List.map (fun x => x.1) ((k1, rs) :: rest)
        = k1 :: rest.map (fun x => x.1) := by simp
    rw [List.countP_cons, hrest, hmap]
    by_cases hk : k1 = k
    · subst hk
      have hzero : ¬ (k1 ∈ rest.map (fun x => x.1)
          ∧ p (assocGet rest k1) = true) := fun hc => hnd2.1 hc.1
      rw [if_neg hzero]
      have hget : assocGet ((k1, rs) :: rest) k1 = rs := by simp [assocGet]
      rw [hget]
      by_cases hp : p rs = true
      · simp [hp]
      · simp [hp]
    · have hks : ¬ k = k1 := fun hh => hk hh.symm
      have hget : assocGet ((k1, rs) :: rest) k = assocGet rest k := by
        simp [assocGet, hk]
      rw [hget]
      have hcond : (k ∈ k1 :: rest.map (fun x => x.1)
            ∧ p (assocGet rest k) = true)
          ↔ (k ∈ rest.map (fun x => x.1) ∧ p (assocGet rest k) = true) := by
        simp [List.mem_cons, hks]
      rw [if_congr hcond rfl rfl]
      have hke : ((k1, rs).1 == k) = false := by simpa using hk
      simp [hke]

/-- C7: `detectVersionConflicts` returns, for every input tree, exactly one
`VersionConflict` per dependency id (case-insensitive) that occurs as a direct
child with ≥ 2 distinct version strings across all (parent, direct-child)
edges, carrying the full list of (requesting package id, requested version)
pairs; ids whose requested versions are all identical yield no conflict.  In
particular root A depending on C@1.0.0 and root B depending on C@2.0.0 yield
one conflict for C with two requester entries. -/
theorem C7_detect_version_conflicts :
    (∀ (packages : List MigrationPackage) (c : VersionConflict),
      c ∈ detectVersionConflicts packages →
        c.requestedVersions = specRequestsF c.packageId packages
        ∧ 1 < (dedupStr (c.requestedVersions.map (·.version))).length)
    ∧ (∀ (packages : List MigrationPackage) (key : String),
      ((detectVersionConflicts packages).countP fun c => c.packageId == key)
        = if 1 < (dedupStr ((specRequestsF key packages).map (·.version))).length
          then 1 else 0)
    ∧ detectVersionConflicts
        [exNode "A" "3.0.0" [exNode "C" "1.0.0" []],
         exNode "B" "3.0.0" [exNode "C" "2.0.0" []]]
      = [⟨"c", [⟨"A", "1.0.0"⟩, ⟨"B", "2.0.0"⟩]⟩] := by
  have hwf : ∀ packages : List MigrationPackage,
      WfReqMap (packages.foldl (fun m pkg => collectVersions pkg m) []) :=
    fun packages => foldl_collect_wf packages [] ⟨by simp, by simp⟩
  have hget : ∀ (packages : List MigrationPackage) (key : String),
      assocGet (packages.foldl (fun m pkg => collectVersions pkg m) []) key
        = specRequestsF key packages := by
    intro packages key
    rw [foldl_collect_assocGet packages [] key]
    rfl
  refine ⟨?_, ?_, by decide⟩
  · intro packages c hc
    unfold detectVersionConflicts at hc
    obtain ⟨e, he, hce⟩ := List.mem_map.1 hc
    have he2 := List.mem_filter.1 he
    have hc1 : c.packageId = e.1 := by rw [← hce]
    have hc2 : c.requestedVersions = e.2 := by rw [← hce]
    constructor
    · rw [hc1, hc2, ← hget packages e.1,
        assocGet_of_mem _ (hwf packages).1 e he2.1]
    · rw [hc2]
      exact of_decide_eq_true he2.2
  · intro packages key
    unfold detectVersionConflicts
    have hcount := conflicts_countP
      (packages.foldl (fun m pkg => collectVersions pkg m) []) key
      (fun rs => decide (1 < (dedupStr (rs.map (·.version))).length))
      (hwf packages).1
    rw [hcount, hget packages key]
    by_cases hlt : 1 < (dedupStr ((specRequestsF key packages).map (·.version))).length
    · rw [if_pos hlt, if_pos]
      refine ⟨?_, by simp [hlt]⟩
      rw [mem_keys_iff_get _ (hwf packages).2 key, hget packages key]
      intro hnil
      rw [hnil] at hlt
      simp [dedupStr, dedupStrAux] at hlt
    · rw [if_neg hlt, if_neg]
      intro hcond
      exact hlt (of_decide_eq_true hcond.2)

/-- Witness for C7 at the diamond example: the conflict for `c` is a member of
the output and carries both requesters. -/
theorem C7_detect_version_conflicts_witness :
    (⟨"c", [⟨"A", "1.0.0"⟩, ⟨"B", "2.0.0"⟩]⟩ : VersionConflict)
      ∈ detectVersionConflicts
        [exNode "A" "3.0.0" [exNode "C" "1.0.0" []],
         exNode "B" "3.0.0" [exNode "C" "2.0.0" []]]
    ∧ (⟨"c", [⟨"A", "1.0.0"⟩, ⟨"B", "2.0.0"⟩]⟩ : VersionConflict).requestedVersions
        = specRequestsF "c"
          [exNode "A" "3.0.0" [exNode "C" "1.0.0" []],
           exNode "B" "3.0.0" [exNode "C" "2.0.0" []]] :=
  ⟨by decide,
    (C7_detect_version_conflicts.1
      [exNode "A" "3.0.0" [exNode "C" "1.0.0" []],
       exNode "B" "3.0.0" [exNode "C" "2.0.0" []]] _ (by decide)).1⟩

theorem insertSorted_perm {α : Type} (le : α → α → Bool) (x : α) (l : List α) :
    (insertSorted le x l).Perm (x :: l) := by
  induction l with
  | nil => simp [insertSorted]
  | cons y ys ih =>
    by_cases h : le y x = true
    · rw [insertSorted, if_pos h]
      exact (ih.cons y).trans (List.Perm.swap x y ys)
    · rw [insertSorted, if_neg h]

theorem foldl_insert_perm {α : Type} (le : α → α → Bool) :
    ∀ (l acc : List α),
      (l.foldl (fun acc x => insertSorted le x acc) acc).Perm (acc ++ l) := by
  intro l
  induction l with
  | nil => intro acc; simp
  | cons x xs ih =>
    intro acc
    simp only [List.foldl_cons]
    refine (ih (insertSorted le x acc)).trans ?_
    refine ((insertSorted_perm le x acc).append_right xs).trans ?_
    exact List.perm_middle.symm

theorem sortStable_perm {α : Type} (le : α → α → Bool) (l : List α) :
    (sortStable le l).Perm l := by
  simpa using foldl_insert_perm le l []

theorem insertSorted_pairwise {α : Type} (le : α → α → Bool)
    (htrans : ∀ a b c, le a b = true → le b c = true → le a c = true)
    (htot : ∀ a b, le a b = true ∨ le b a = true) (x : α) (l : List α)
    (hl : l.Pairwise fun a b => le a b = true) :
    (insertSorted le x l).Pairwise fun a b => le a b = true := by
  induction l with
  | nil => simp [insertSorted]
  | cons y ys ih =>
    obtain ⟨hy, hys⟩ := List.pairwise_cons.1 hl
    by_cases h : le y x = true
    · rw [insertSorted, if_pos h]
      refine List.pairwise_cons.2 ⟨?_, ih hys⟩
      intro z hz
      rcases List.mem_cons.1 ((insertSorted_perm le x ys).mem_iff.1 hz) with rfl | hz2
      · exact h
      · exact hy z hz2
    · rw [insertSorted, if_neg h]
      have hxy : le x y = true := (htot x y).resolve_right (by simpa using h)
      refine List.pairwise_cons.2 ⟨?_, hl⟩
      intro z hz
      rcases List.mem_cons.1 hz with rfl | hz2
      · exact hxy
      · exact htrans x y z hxy (hy z hz2)

theorem sortStable_pairwise {α : Type} (le : α → α → Bool)
    (htrans : ∀ a b c, le a b = true → le b c = true → le a c = true)
    (htot : ∀ a b, le a b = true ∨ le b a = true) (l : List α) :
    (sortStable le l).Pairwise fun a b => le a b = true := by
  have haux : ∀ (l acc : List α), (acc.Pairwise fun a b => le a b = true) →
      ((l.foldl (fun acc x => insertSorted le x acc) acc).Pairwise
        fun a b => le a b = true) := by
    intro l
    induction l with
    | nil => intro acc h; exact h
    | cons x xs ih =>
      intro acc h
      simp only [List.foldl_cons]
      exact ih _ (insertSorted_pairwise le htrans htot x acc h)
  exact haux l [] List.Pairwise.nil

theorem stageLE_trans (a b c : RootPackageView) (h1 : stageLE a b = true)
    (h2 : stageLE b c = true) : stageLE a c = true := by
  by_cases ha : a.status = .split <;> by_cases hb : b.status = .split <;>
    by_cases hc : c.status = .split <;>
    simp [stageLE, ha, hb, hc] at h1 h2 ⊢ <;> omega

theorem stageLE_total (a b : RootPackageView) :
    stageLE a b = true ∨ stageLE b a = true := by
  by_cases ha : a.status = .split <;> by_cases hb : b.status = .split <;>
    simp [stageLE, ha, hb] <;> omega

theorem length_filter_lt {α : Type} (p : α → Bool) (l : List α) (x : α)
    (hx : x ∈ l) (hpx : p x = false) : (l.filter p).length < l.length := by
  induction l with
  | nil => cases hx
  | cons y ys ih =>
    rcases List.mem_cons.1 hx with rfl | hx2
    · have h1 := List.length_filter_le p ys
      simp only [List.filter_cons, hpx, Bool.false_eq_true, if_false,
        List.length_cons]
      omega
    · by_cases hy : p y = true
      · have h1 := ih hx2
        simp only [List.filter_cons, hy, if_true, List.length_cons]
        omega
      · have h1 := ih hx2
        simp only [List.filter_cons, show p y = false from by simpa using hy,
          Bool.false_eq_true, if_false, List.length_cons]
        omega

theorem buildStages_spec (views : List RootPackageView)
    (depsBy : List (String × List String)) :
    ∀ (fuel : Nat) (placed remaining : List String),
      remaining.length < fuel →
      StagesSpec views depsBy placed remaining
        (buildStages views depsBy fuel placed remaining) := by
  intro fuel
  induction fuel with
  | zero => intro placed remaining h; omega
  | succ fuel ih =>
    intro placed remaining hlen
    by_cases hemp : remaining.isEmpty = true
    · have hrem : remaining = [] := by simpa using hemp
      subst hrem
      simp only [buildStages, List.isEmpty_nil, if_true]
      exact StagesSpec.done placed
    · have hne : remaining ≠ [] := by
        intro h; rw [h] at hemp; exact hemp rfl
      by_cases hb : (qualifying views depsBy placed remaining).isEmpty = true
      · have hqe : qualifying views depsBy placed remaining = [] := by
          simpa using hb
        simp only [buildStages, hemp, if_false, hb, if_true, Bool.false_eq_true]
        exact StagesSpec.circular hne hqe
          (sortStable_perm stageLE (takeRemaining views remaining))
          (sortStable_pairwise stageLE stageLE_trans stageLE_total _)
      · have hqne : qualifying views depsBy placed remaining ≠ [] := by
          intro h
          rw [h] at hb
          exact hb rfl
        simp only [buildStages, hemp, if_false, hb, Bool.false_eq_true]
        refine StagesSpec.step hne hqne
          (sortStable_perm stageLE _)
          (sortStable_pairwise stageLE stageLE_trans stageLE_total _)
          (ih _ _ ?_)
        obtain ⟨v, hv⟩ := List.exists_mem_of_ne_nil _ hqne
        have hvmem := List.mem_filter.1 hv
        have hkey : lower v.id ∈ remaining := by
          have := hvmem.2
          simp only [Bool.and_eq_true] at this
          exact List.mem_of_elem_eq_true this.1
        have hcontains : ((qualifying views depsBy placed remaining).map
            fun v => lower v.id).contains (lower v.id) = true :=
          List.elem_eq_true_of_mem (List.mem_map_of_mem _ hv)
        have hlt := length_filter_lt
          (fun k => !((qualifying views depsBy placed remaining).map
            fun v => lower v.id).contains k) remaining (lower v.id) hkey
          (by simp; exact ⟨v, hv, rfl⟩)
        omega

/-- C8: for every set of analyzed root packages the stage planner satisfies
the claim's staging contract (`StagesSpec`): each stage is exactly the set of
remaining roots whose root-level transitive prerequisites are already placed,
sorted ascending by (status == split, total direct-dependency count), with all
remaining roots emitted as one final stage when none qualifies; and roots
A, B, C with A depending on root B produce stage 1 = {B, C}, stage 2 = {A}. -/
theorem C8_stage_planner :
    (∀ packages : List MigrationPackage,
      StagesSpec (packages.map toView)
        (buildDepsByRoot (dedupStr (packages.map (·.key))) packages)
        [] (dedupStr ((packages.map toView).map fun v => lower v.id))
        (roadmapStages packages))
    ∧ (roadmapStages
        [exNode "A" "1.0.0" [exNode "B" "1.0.0" []],
         exNode "B" "1.0.0" [], exNode "C" "1.0.0" []]).map (fun st => st.map (·.id))
      = [["B", "C"], ["A"]] := by
  constructor
  · intro packages
    exact buildStages_spec _ _ _ [] _ (by omega)
  · decide

theorem findCompatible_version_eq (env : AnalyzeEnv) (id fw : String) :
    ∀ avs, (findCompatibleVersionForFramework env id avs fw).map (·.1)
      = specCompatibleVersion env id avs fw := by
  intro avs
  induction avs with
  | nil => rfl
  | cons v rest ih =>
    unfold findCompatibleVersionForFramework specCompatibleVersion
    unfold specCompatibleVersion at ih
    cases hd : env.getPackageDetails id v with
    | none =>
      rw [List.find?_cons_of_neg _ (by simp [hd])]
      exact ih
    | some details =>
      by_cases hs : isFrameworkSupported (frameworksOfDetails details) fw = true
      · rw [List.find?_cons_of_pos _ (by simp [hd, hs])]
        simp [hs]
      · rw [List.find?_cons_of_neg _ (by simp [hd]; simpa using hs)]
        simp only [Bool.not_eq_true] at hs
        simp [hs, ih]

theorem searchUnsupported_char (env : AnalyzeEnv) (id : String) (avs : List String) :
    ∀ l : List FrameworkCompatibility,
    searchUnsupported env id avs l
      = if (l.all fun fc =>
            (specCompatibleVersion env id avs fc.framework).isSome) = true then
          some (l.map fun fc =>
            ⟨fc.framework,
              (specCompatibleVersion env id avs fc.framework).getD "unknown"⟩)
        else Option.none := by
  intro l
  induction l with
  | nil => simp [searchUnsupported]
  | cons fc rest ih =>
    have hv := findCompatible_version_eq env id fc.framework avs
    cases hf : findCompatibleVersionForFramework env id avs fc.framework with
    | none =>
      have hsv : specCompatibleVersion env id avs fc.framework = Option.none := by
        rw [← hv, hf]; rfl
      simp [searchUnsupported, hf, hsv]
    | some found =>
      have hsv : specCompatibleVersion env id avs fc.framework = some found.1 := by
        rw [← hv, hf]; rfl
      simp only [searchUnsupported, hf, ih, hsv, List.all_cons, Option.isSome_some,
        Bool.true_and]
      by_cases hall : (rest.all fun fc =>
          (specCompatibleVersion env id avs fc.framework).isSome) = true
      · simp [hall, hsv]
      · simp [hall, hsv]

theorem classifyPackage_mixed (env : AnalyzeEnv) (fws : List String) (d : PkgData)
    (bc : Nat)
    (hsup : ∃ fc ∈ fcsOf d fws, fc.supported = true)
    (hunsup : ∃ fc ∈ fcsOf d fws, fc.supported = false) :
    classifyPackage env fws true d bc
      = if (((fcsOf d fws).filter fun fc => !fc.supported).all fun fc =>
            (specCompatibleVersion env d.id d.availableVersions
              fc.framework).isSome) = true
        then (.split, some
          ((((fcsOf d fws).filter (·.supported)).map fun fc =>
            (⟨fc.framework, d.version⟩ : PerFrameworkVersion))
          ++ (((fcsOf d fws).filter fun fc => !fc.supported).map fun fc =>
            ⟨fc.framework,
              (specCompatibleVersion env d.id d.availableVersions
                fc.framework).getD "unknown"⟩)))
        else (.blocked, Option.none) := by
  simp only [fcsOf] at hsup hunsup ⊢
  have hall : ((fws.map (isFrameworkSupportedDetailed d.targetFrameworks)).all
      (·.supported)) = false := by
    obtain ⟨fc, hfc, hfcs⟩ := hunsup
    simp only [List.all_eq_false]
    exact ⟨fc, hfc, by simp [hfcs]⟩
  have hnone : ((fws.map (isFrameworkSupportedDetailed d.targetFrameworks)).all
      fun fc => !fc.supported) = false := by
    obtain ⟨fc, hfc, hfcs⟩ := hsup
    simp only [List.all_eq_false]
    exact ⟨fc, hfc, by simp [hfcs]⟩
  simp only [classifyPackage, hall, hnone, Bool.false_eq_true, if_false,
    Bool.not_false, Bool.and_self, Bool.and_true, if_true,
    searchUnsupported_char]
  by_cases hfound : (((fws.map
        (isFrameworkSupportedDetailed d.targetFrameworks)).filter
        fun fc => !fc.supported).all fun fc =>
        (specCompatibleVersion env d.id d.availableVersions
          fc.framework).isSome) = true
  · simp [hfound]
  · simp [hfound]

theorem classifyPackage_single (env : AnalyzeEnv) (target : String) (d : PkgData)
    (bc : Nat)
    (hns : (isFrameworkSupportedDetailed d.targetFrameworks target).supported
      = false) :
    classifyPackage env [target] false d bc = (.blocked, Option.none) := by
  simp [classifyPackage, hns]

theorem analyzePackageImpl_noncyclic (env : AnalyzeEnv) (fws : List String)
    (multi : Bool) (d : PkgData) (deps : List MigrationPackage)
    (st : List (String × PkgData)) (hcyc : d.isCyclic = false) :
    (analyzePackageImpl env fws multi (.mk d deps) st).1
      = .mk
        { d with
          status := (classifyPackage env fws multi d
            (((analyzeDeps env fws multi deps st).1.filter
              fun dp => dp.status == Status.blocked).length)).1
          blockerCount := ((analyzeDeps env fws multi deps st).1.filter
            fun dp => dp.status == Status.blocked).length
          frameworkCompatibility :=
            some (fws.map (isFrameworkSupportedDetailed d.targetFrameworks))
          perFrameworkVersions := (classifyPackage env fws multi d
            (((analyzeDeps env fws multi deps st).1.filter
              fun dp => dp.status == Status.blocked).length)).2 }
        (analyzeDeps env fws multi deps st).1 := by
  simp only [analyzePackageImpl, hcyc, Bool.false_eq_true, if_false]

/-- C5: in multi-framework mode, a non-cyclic package with mixed framework
support is classified `split` — with `perFrameworkVersions` holding the
current version per supported framework and, per unsupported framework, the
newest available version whose own declared frameworks support it — exactly
when every unsupported framework finds such a version, and `blocked`
otherwise; with a single framework in scope an unsupported package is
`blocked` and no split is attempted. -/
theorem C5_split_resolution :
    (∀ (env : AnalyzeEnv) (fws : List String) (d : PkgData)
        (deps : List MigrationPackage) (st : List (String × PkgData)),
      d.isCyclic = false →
      1 < fws.length →
      (∃ fc ∈ fcsOf d fws, fc.supported = true) →
      (∃ fc ∈ fcsOf d fws, fc.supported = false) →
      ((analyzePackageImpl env fws (decide (1 < fws.length))
          (.mk d deps) st).1.status = Status.split
        ↔ ∀ fc ∈ fcsOf d fws, fc.supported = false →
            (specCompatibleVersion env d.id d.availableVersions fc.framework).isSome
              = true)
      ∧ ((analyzePackageImpl env fws (decide (1 < fws.length))
          (.mk d deps) st).1.status = Status.split
        ∨ (analyzePackageImpl env fws (decide (1 < fws.length))
          (.mk d deps) st).1.status = Status.blocked)
      ∧ ((analyzePackageImpl env fws (decide (1 < fws.length))
          (.mk d deps) st).1.status = Status.blocked →
        (analyzePackageImpl env fws (decide (1 < fws.length))
          (.mk d deps) st).1.data.perFrameworkVersions = Option.none)
      ∧ ((analyzePackageImpl env fws (decide (1 < fws.length))
          (.mk d deps) st).1.status = Status.split →
        (analyzePackageImpl env fws (decide (1 < fws.length))
          (.mk d deps) st).1.data.perFrameworkVersions
          = some
            ((((fcsOf d fws).filter (·.supported)).map fun fc =>
                ⟨fc.framework, d.version⟩)
              ++ (((fcsOf d fws).filter fun fc => !fc.supported).map fun fc =>
                ⟨fc.framework,
                  (specCompatibleVersion env d.id d.availableVersions
                    fc.framework).getD "unknown"⟩))))
    ∧ (∀ (env : AnalyzeEnv) (target : String) (d : PkgData)
        (deps : List MigrationPackage) (st : List (String × PkgData)),
      d.isCyclic = false →
      (isFrameworkSupportedDetailed d.targetFrameworks target).supported = false →
      (analyzePackageImpl env [target] false (.mk d deps) st).1.status
          = Status.blocked
      ∧ (analyzePackageImpl env [target] false
          (.mk d deps) st).1.data.perFrameworkVersions = Option.none) := by
  have hiff : ∀ (env : AnalyzeEnv) (fws : List String) (d : PkgData),
      ((((fcsOf d fws).filter fun fc => !fc.supported).all fun fc =>
          (specCompatibleVersion env d.id d.availableVersions
            fc.framework).isSome) = true)
        ↔ (∀ fc ∈ fcsOf d fws, fc.supported = false →
            (specCompatibleVersion env d.id d.availableVersions
              fc.framework).isSome = true) := by
    intro env fws d
    rw [List.all_eq_true]
    constructor
    · intro h fc hfc hns
      exact h fc (List.mem_filter.2 ⟨hfc, by simp [hns]⟩)
    · intro h fc hfc
      have h2 := List.mem_filter.1 hfc
      exact h fc h2.1 (by simpa using h2.2)
  constructor
  · intro env fws d deps st hcyc hmulti hsup hunsup
    have hmul : decide (1 < fws.length) = true := decide_eq_true hmulti
    rw [hmul]
    rw [analyzePackageImpl_noncyclic env fws true d deps st hcyc]
    rw [classifyPackage_mixed env fws d
      (((analyzeDeps env fws true deps st).1.filter
        fun dp => dp.status == Status.blocked).length) hsup hunsup]
    by_cases hfound : (((fcsOf d fws).filter fun fc => !fc.supported).all
        fun fc => (specCompatibleVersion env d.id d.availableVersions
          fc.framework).isSome) = true
    · simp only [hfound, if_true]
      refine ⟨?_, ?_, ?_, ?_⟩
      · simp only [MigrationPackage.status, MigrationPackage.data]
        exact ⟨fun _ => (hiff env fws d).1 hfound, fun _ => trivial⟩
      · left
        simp [MigrationPackage.status, MigrationPackage.data]
      · intro h
        simp only [MigrationPackage.status, MigrationPackage.data] at h
        exact absurd h (by simp)
      · intro _
        simp [MigrationPackage.data]
    · simp only [hfound, if_false, Bool.false_eq_true]
      refine ⟨?_, ?_, ?_, ?_⟩
      · simp only [MigrationPackage.status, MigrationPackage.data]
        constructor
        · intro h
          exact absurd h (by simp)
        · intro h
          exact absurd ((hiff env fws d).2 h) hfound
      · right
        simp [MigrationPackage.status, MigrationPackage.data]
      · intro _
        simp [MigrationPackage.data]
      · intro h
        simp only [MigrationPackage.status, MigrationPackage.data] at h
        exact absurd h (by simp)
  · intro env target d deps st hcyc hns
    rw [analyzePackageImpl_noncyclic env [target] false d deps st hcyc,
      classifyPackage_single env target d _ hns]
    constructor
    · simp [MigrationPackage.status, MigrationPackage.data]
    · simp [MigrationPackage.data]

/-- Witness for C5: current `net6.0`, target `net8.0`, `P` supporting only
`net8.0` directly with an older version supporting `net6.0` — status `split`
with the two expected per-framework versions. -/
theorem C5_split_resolution_witness :
    exPkgC5.isCyclic = false
    ∧ 1 < (["net8.0", "net6.0"] : List String).length
    ∧ (∃ fc ∈ fcsOf exPkgC5 ["net8.0", "net6.0"], fc.supported = true)
    ∧ (∃ fc ∈ fcsOf exPkgC5 ["net8.0", "net6.0"], fc.supported = false)
    ∧ ((analyzePackageImpl exEnvC5 ["net8.0", "net6.0"]
        (decide (1 < (["net8.0", "net6.0"] : List String).length))
        (.mk exPkgC5 []) []).1.status = Status.split
      ↔ ∀ fc ∈ fcsOf exPkgC5 ["net8.0", "net6.0"], fc.supported = false →
          (specCompatibleVersion exEnvC5 exPkgC5.id exPkgC5.availableVersions
            fc.framework).isSome = true)
    ∧ (analyzePackageImpl exEnvC5 ["net8.0", "net6.0"]
        (decide (1 < (["net8.0", "net6.0"] : List String).length))
        (.mk exPkgC5 []) []).1.status = Status.split
    ∧ (analyzePackageImpl exEnvC5 ["net8.0", "net6.0"]
        (decide (1 < (["net8.0", "net6.0"] : List String).length))
        (.mk exPkgC5 []) []).1.data.perFrameworkVersions
      = some [⟨"net8.0", "2.0.0"⟩, ⟨"net6.0", "1.0.0"⟩] :=
  ⟨by decide, by decide, by decide, by decide,
    (C5_split_resolution.1 exEnvC5 ["net8.0", "net6.0"] exPkgC5 [] []
      (by decide) (by decide) (by decide) (by decide)).1,
    by decide, by decide⟩

/-! ### Termination of the loader -/
theorem filter_length_mono {α : Type} (l : List α) (p q : α → Bool)
    (himp : ∀ a ∈ l, q a = true → p a = true) :
    (l.filter q).length ≤ (l.filter p).length := by
  induction l with
  | nil => simp
  | cons a l' ih =>
    have ih2 := ih fun a ha => himp a (List.mem_cons_of_mem _ ha)
    by_cases hq : q a = true
    · have hp := himp a (by simp) hq
      simp only [List.filter_cons, hq, hp, if_true, List.length_cons]
      omega
    · have hq2 : q a = false := by simpa using hq
      by_cases hp : p a = true
      · simp only [List.filter_cons, hq2, hp, Bool.false_eq_true, if_false,
          if_true, List.length_cons]
        omega
      · simp only [List.filter_cons, hq2, show p a = false from by simpa using hp,
          Bool.false_eq_true, if_false]
        exact ih2

theorem filter_length_lt_of_stronger {α : Type} (l : List α) (p q : α → Bool)
    (himp : ∀ a ∈ l, q a = true → p a = true) (x : α) (hx : x ∈ l)
    (hpx : p x = true) (hqx : q x = false) :
    (l.filter q).length < (l.filter p).length := by
  induction l with
  | nil => cases hx
  | cons a l' ih =>
    have himp2 : ∀ a ∈ l', q a = true → p a = true :=
      fun a ha => himp a (List.mem_cons_of_mem _ ha)
    rcases List.mem_cons.1 hx with rfl | hx2
    · have hmono := filter_length_mono l' p q himp2
      simp only [List.filter_cons, hqx, hpx, Bool.false_eq_true, if_false,
        if_true, List.length_cons]
      omega
    · have ih2 := ih himp2 hx2
      by_cases hq : q a = true
      · have hp := himp a (by simp) hq
        simp only [List.filter_cons, hq, hp, if_true, List.length_cons]
        omega
      · have hq2 : q a = false := by simpa using hq
        by_cases hp : p a = true
        · simp only [List.filter_cons, hq2, hp, Bool.false_eq_true, if_false,
            if_true, List.length_cons]
          omega
        · simp only [List.filter_cons, hq2,
            show p a = false from by simpa using hp, Bool.false_eq_true, if_false]
          exact ih2

theorem foldr_max_of_mem (l : List Nat) (x : Nat) (hx : x ∈ l) :
    x ≤ l.foldr max 0 := by
  induction l with
  | nil => cases hx
  | cons a l' ih =>
    rcases List.mem_cons.1 hx with rfl | hx2
    · simp only [List.foldr_cons]
      omega
    · have := ih hx2
      simp only [List.foldr_cons]
      omega

theorem collectDepIds_length (groups : List DependencyGroup) :
    (collectDepIds groups).length
      ≤ (groups.flatMap fun g => g.dependencies.getD []).length := by
  have haux : ∀ (gs : List DependencyGroup) (acc : List Dependency),
      (gs.foldl
        (fun acc g =>
          match g.dependencies with
          | Option.none => acc
          | some ds =>
            ds.foldl
              (fun acc dep =>
                if acc.any fun d0 => lower d0.id == lower dep.id then acc
                else acc ++ [⟨dep.id, Option.none⟩])
              acc)
        acc).length
      ≤ acc.length + (gs.flatMap fun g => g.dependencies.getD []).length := by
    intro gs
    induction gs with
    | nil => intro acc; simp
    | cons g gs ihg =>
      intro acc
      have hstep : ∀ (ds : List Dependency) (acc2 : List Dependency),
          (ds.foldl
            (fun acc dep =>
              if acc.any fun d0 => lower d0.id == lower dep.id then acc
              else acc ++ [⟨dep.id, Option.none⟩])
            acc2).length ≤ acc2.length + ds.length := by
        intro ds
        induction ds with
        | nil => intro acc2; simp
        | cons dep ds ihd =>
          intro acc2
          simp only [List.foldl_cons]
          by_cases hdup : (acc2.any fun d0 => lower d0.id == lower dep.id) = true
          · have := ihd acc2
            simp only [hdup, if_true, List.length_cons]
            omega
          · have := ihd (acc2 ++ [⟨dep.id, Option.none⟩])
            simp only [show (acc2.any fun d0 => lower d0.id == lower dep.id)
              = false from by simpa using hdup, Bool.false_eq_true, if_false,
              List.length_cons]
            simp only [List.length_append, List.length_cons,
              List.length_nil] at this
            omega
      simp only [List.foldl_cons, List.flatMap_cons, List.length_append]
      cases hg : g.dependencies with
      | none =>
        have := ihg acc
        simp only [hg, Option.getD_none, List.length_nil]
        omega
      | some ds =>
        have h1 := hstep ds acc
        have h2 := ihg (ds.foldl
          (fun acc dep =>
            if acc.any fun d0 => lower d0.id == lower dep.id then acc
            else acc ++ [⟨dep.id, Option.none⟩]) acc)
        simp only [hg, Option.getD_some]
        omega
  have := haux groups []
  simpa [collectDepIds] using this

theorem memoLookup_eq_none_iff (m : List (String × PkgData)) (key : String) :
    memoLookup m key = Option.none ↔ key ∉ m.map (·.1) := by
  induction m with
  | nil => simp [memoLookup]
  | cons e rest ih =>
    obtain ⟨k, v⟩ := e
    by_cases h : k = key
    · subst h
      simp [memoLookup]
    · simp only [memoLookup, if_neg h, List.map_cons, List.mem_cons, ih]
      constructor
      · intro h2
        intro hc
        rcases hc with hc | hc
        · exact h hc.symm
        · exact h2 hc
      · intro h2 h3
        exact h2 (Or.inr h3)

theorem lookup_mem {α β : Type} [BEq α] [LawfulBEq α]
    (l : List (α × β)) (k : α) (v : β) (h : l.lookup k = some v) : (k, v) ∈ l := by
  induction l with
  | nil => simp [List.lookup] at h
  | cons e rest ih =>
    obtain ⟨k1, v1⟩ := e
    by_cases hk : k == k1
    · simp only [List.lookup, hk, if_pos rfl] at h
      have hk2 : k = k1 := by simpa using hk
      simp only [Option.some.injEq] at h
      simp [hk2, h]
    · simp only [List.lookup] at h
      rw [show (k == k1) = false from by simpa using hk] at h
      exact List.mem_cons_of_mem _ (ih h)

theorem collectDepIds_mem (groups : List DependencyGroup) (d : Dependency)
    (hd : d ∈ collectDepIds groups) :
    ∃ dep ∈ groups.flatMap fun g => g.dependencies.getD [], d.id = dep.id := by
  have haux : ∀ (gs : List DependencyGroup) (acc : List Dependency),
      ∀ x ∈ gs.foldl
        (fun acc g =>
          match g.dependencies with
          | Option.none => acc
          | some ds =>
            ds.foldl
              (fun acc dep =>
                if acc.any fun d0 => lower d0.id == lower dep.id then acc
                else acc ++ [⟨dep.id, Option.none⟩])
              acc)
        acc,
      x ∈ acc ∨ ∃ dep ∈ gs.flatMap fun g => g.dependencies.getD [], x.id = dep.id := by
    intro gs
    induction gs with
    | nil => intro acc x hx; exact Or.inl hx
    | cons g gs ihg =>
      intro acc x hx
      have hstep : ∀ (ds : List Dependency) (acc2 : List Dependency),
          ∀ y ∈ ds.foldl
            (fun acc dep =>
              if acc.any fun d0 => lower d0.id == lower dep.id then acc
              else acc ++ [⟨dep.id, Option.none⟩]) acc2,
          y ∈ acc2 ∨ ∃ dep ∈ ds, y.id = dep.id := by
        intro ds
        induction ds with
        | nil => intro acc2 y hy; exact Or.inl hy
        | cons dep ds ihd =>
          intro acc2 y hy
          simp only [List.foldl_cons] at hy
          by_cases hdup : (acc2.any fun d0 => lower d0.id == lower dep.id) = true
          · rw [if_pos hdup] at hy
            rcases ihd acc2 y hy with h | ⟨dep2, hdep2, hid⟩
            · exact Or.inl h
            · exact Or.inr ⟨dep2, List.mem_cons_of_mem _ hdep2, hid⟩
          · rw [if_neg hdup] at hy
            rcases ihd _ y hy with h | ⟨dep2, hdep2, hid⟩
            · rcases List.mem_append.1 h with h | h
              · exact Or.inl h
              · simp only [List.mem_singleton] at h
                exact Or.inr ⟨dep, by simp, by rw [h]⟩
            · exact Or.inr ⟨dep2, List.mem_cons_of_mem _ hdep2, hid⟩
      simp only [List.foldl_cons] at hx
      cases hg : g.dependencies with
      | none =>
        rw [hg] at hx
        rcases ihg acc x hx with h | ⟨dep2, hdep2, hid⟩
        · exact Or.inl h
        · refine Or.inr ⟨dep2, ?_, hid⟩
          simp only [List.flatMap_cons, List.mem_append]
          exact Or.inr hdep2
      | some ds =>
        rw [hg] at hx
        rcases ihg _ x hx with h | ⟨dep2, hdep2, hid⟩
        · rcases hstep ds acc x h with h2 | ⟨dep2, hdep2, hid⟩
          · exact Or.inl h2
          · refine Or.inr ⟨dep2, ?_, hid⟩
            simp only [List.flatMap_cons, List.mem_append, hg, Option.getD_some]
            exact Or.inl hdep2
        · refine Or.inr ⟨dep2, ?_, hid⟩
          simp only [List.flatMap_cons, List.mem_append]
          exact Or.inr hdep2
  rcases haux groups [] d (by simpa [collectDepIds] using hd) with h | h
  · cases h
  · exact h

theorem loadCore_depIds_space (env : LoaderEnv) (roots : List String)
    (pid key : String) (req : Option String) (d : Dependency)
    (hd : d ∈ (loadCore env pid key req).dependencyIds) :
    lower d.id ∈ idSpace env roots := by
  unfold loadCore at hd
  cases hc : env.cacheGet key with
  | some c =>
    rw [hc] at hd
    have hmem := lookup_mem _ _ _ hc
    unfold idSpace
    simp only [List.mem_append]
    left; right
    simp only [List.mem_flatMap]
    exact ⟨(key, c), hmem, List.mem_map_of_mem _ hd⟩
  | none =>
    rw [hc] at hd
    simp only [] at hd
    cases hdet : env.getPackageDetails pid
        (pickVersion env.devVersionFilter
          (match env.getPackageVersions pid with
            | some vs => vs
            | Option.none =>
              match truthyStr req with
              | some r => [r]
              | Option.none => []) req) with
    | none =>
      rw [hdet] at hd
      simp [collectDepIds] at hd
    | some details =>
      rw [hdet] at hd
      obtain ⟨dep, hdep, hid⟩ := collectDepIds_mem _ _ hd
      have hmem := lookup_mem _ _ _ hdet
      unfold idSpace
      simp only [List.mem_append]
      right
      simp only [List.mem_flatMap]
      refine ⟨_, hmem, ?_⟩
      simp only [List.mem_flatMap] at hdep ⊢
      obtain ⟨g, hg, hdepg⟩ := hdep
      exact ⟨g, hg, by rw [hid]; exact List.mem_map_of_mem _ hdepg⟩

theorem loadCore_depIds_len (env : LoaderEnv) (pid key : String)
    (req : Option String) :
    (loadCore env pid key req).dependencyIds.length ≤ maxDepsCount env := by
  unfold loadCore
  cases hc : env.cacheGet key with
  | some c =>
    have hmem := lookup_mem _ _ _ hc
    have : c.dependencyIds.length
        ∈ env.cacheList.map fun e => e.2.dependencyIds.length :=
      List.mem_map_of_mem _ hmem
    have h2 := foldr_max_of_mem _ _ this
    exact le_trans h2 (le_max_left _ _)
  | none =>
    simp only []
    cases hdet : env.getPackageDetails pid
        (pickVersion env.devVersionFilter
          (match env.getPackageVersions pid with
            | some vs => vs
            | Option.none =>
              match truthyStr req with
              | some r => [r]
              | Option.none => []) req) with
    | none => simp [collectDepIds, maxDepsCount]
    | some details =>
      have hmem := lookup_mem _ _ _ hdet
      have h1 := collectDepIds_length (details.dependencyGroups.getD [])
      have : ((details.dependencyGroups.getD []).flatMap fun g =>
          g.dependencies.getD []).length ∈ env.detailsList.map fun e =>
            ((e.2.dependencyGroups.getD []).flatMap fun g =>
              g.dependencies.getD []).length :=
        List.mem_map_of_mem _ hmem
      have h2 := foldr_max_of_mem _ _ this
      exact le_trans (le_trans h1 h2) (le_max_right _ _)

theorem uc_mono (space keys keys2 : List String) (h : keys ⊆ keys2) :
    unvisitedCount space keys2 ≤ unvisitedCount space keys := by
  apply filter_length_mono
  intro a _ hq
  cases hc : keys.contains a with
  | false => simp
  | true =>
    exfalso
    have hmem : a ∈ keys2 := h (List.mem_of_elem_eq_true hc)
    have hc2 : keys2.contains a = true := List.elem_eq_true_of_mem hmem
    rw [hc2] at hq
    simp at hq

theorem uc_pos (space keys : List String) (key : String) (hk : key ∈ space)
    (hnv : key ∉ keys) : 1 ≤ unvisitedCount space keys := by
  have hmem : key ∈ space.dedup.filter fun k => !(keys.contains k) := by
    refine List.mem_filter.2 ⟨List.mem_dedup.2 hk, ?_⟩
    cases hc : keys.contains key with
    | false => simp
    | true => exact absurd (List.mem_of_elem_eq_true hc) hnv
  exact List.length_pos_of_mem hmem

theorem uc_lt (space keys : List String) (key : String) (hk : key ∈ space)
    (hnv : key ∉ keys) :
    unvisitedCount space (keys ++ [key]) < unvisitedCount space keys := by
  apply filter_length_lt_of_stronger _ _ _ ?himp key (List.mem_dedup.2 hk)
  · cases hc : keys.contains key with
    | false => simp
    | true => exact absurd (List.mem_of_elem_eq_true hc) hnv
  · have hmem : key ∈ keys ++ [key] := by simp
    have hc2 : (keys ++ [key]).contains key = true := List.elem_eq_true_of_mem hmem
    rw [hc2]
    rfl
  case himp =>
    intro a _ hq
    cases hc : keys.contains a with
    | false => simp
    | true =>
      exfalso
      have hmem : a ∈ keys ++ [key] :=
        List.mem_append.2 (Or.inl (List.mem_of_elem_eq_true hc))
      have hc2 : (keys ++ [key]).contains a = true := List.elem_eq_true_of_mem hmem
      rw [hc2] at hq
      simp at hq

/-- Totality of the loader recursion: with enough fuel every call returns, and
`visited` only ever grows (by appending).  The three conjuncts track the three
mutual functions; `space` is any superset of the ids `loadCore` can mention. -/
theorem loader_total_aux (env : LoaderEnv) (space : List String)
    (hclosure : ∀ (pid key : String) (req : Option String) (d : Dependency),
      d ∈ (loadCore env pid key req).dependencyIds → lower d.id ∈ space) :
    ∀ fuel : Nat,
      (∀ (pid : String) (depth : Nat) (req : Option String)
          (anc : List String) (st : LoaderState),
        lower pid ∈ space →
        unvisitedCount space (st.visited.map (·.1)) * (maxDepsCount env + 2) + 1
          ≤ fuel →
        ∃ r, loadPackage env fuel pid depth req anc st = some r
          ∧ st.visited <+: r.2.visited)
      ∧ (∀ (pid : String) (depth : Nat) (req : Option String)
          (anc : List String) (st : LoaderState),
        lower pid ∈ space →
        lower pid ∉ st.visited.map (·.1) →
        unvisitedCount space (st.visited.map (·.1)) * (maxDepsCount env + 2)
          ≤ fuel →
        ∃ r, loadPackageImpl env fuel pid (lower pid) depth req anc st = some r
          ∧ st.visited <+: r.2.visited)
      ∧ (∀ (deps : List Dependency) (depth : Nat) (anc : List String)
          (st : LoaderState),
        (∀ d ∈ deps, lower d.id ∈ space) →
        unvisitedCount space (st.visited.map (·.1)) * (maxDepsCount env + 2)
          + 1 + deps.length ≤ fuel →
        ∃ r, loadDeps env fuel deps depth anc st = some r
          ∧ st.visited <+: r.2.visited) := by
  intro fuel
  induction fuel using Nat.strong_induction_on with
  | _ fuel ih =>
  refine ⟨?_, ?_, ?_⟩
  · -- loadPackage
    intro pid depth req anc st hpid hfuel
    cases fuel with
    | zero => exact absurd hfuel (by omega)
    | succ f =>
      have heq : loadPackage env (f + 1) pid depth req anc st =
          (match memoLookup st.visited (lower pid) with
           | some existing => some (sharedStub existing depth, st)
           | Option.none =>
             if anc.contains (lower pid) then
               some (.mk (cyclicNode env pid req depth) [], st)
             else
               loadPackageImpl env f pid (lower pid) depth req
                 ((lower pid) :: anc) st) := rfl
      rw [heq]
      cases hlook : memoLookup st.visited (lower pid) with
      | some existing =>
        exact ⟨(sharedStub existing depth, st), rfl, List.prefix_refl _⟩
      | none =>
        by_cases hanc : anc.contains (lower pid)
        · rw [if_pos hanc]
          exact ⟨(.mk (cyclicNode env pid req depth) [], st), rfl,
            List.prefix_refl _⟩
        · rw [if_neg hanc]
          have hnv : lower pid ∉ st.visited.map (·.1) :=
            (memoLookup_eq_none_iff _ _).1 hlook
          have hle : unvisitedCount space (st.visited.map (·.1))
              * (maxDepsCount env + 2) ≤ f := by omega
          exact (ih f (by omega)).2.1 pid depth req (lower pid :: anc) st
            hpid hnv hle
  · -- loadPackageImpl
    intro pid depth req anc st hpid hnv hfuel
    have hu := uc_pos space (st.visited.map (·.1)) (lower pid) hpid hnv
    have hK : 2 ≤ maxDepsCount env + 2 := by omega
    have hfpos : 1 ≤ fuel := by
      have h2 : 1 * (maxDepsCount env + 2)
          ≤ unvisitedCount space (st.visited.map (·.1))
            * (maxDepsCount env + 2) :=
        Nat.mul_le_mul_right _ hu
      rw [one_mul] at h2
      omega
    cases fuel with
    | zero => exact absurd hfpos (by omega)
    | succ f =>
      have heq : loadPackageImpl env (f + 1) pid (lower pid) depth req anc st =
          (match loadDeps env f
              (loadCore env pid (lower pid) req).dependencyIds (depth + 1) anc
              ⟨st.visited ++ [(lower pid,
                  freshNode env pid (loadCore env pid (lower pid) req) depth)],
                if (loadCore env pid (lower pid) req).didFetch then
                  st.fetched ++ [lower pid]
                else st.fetched⟩ with
           | some (children, st2) =>
             some (.mk (freshNode env pid (loadCore env pid (lower pid) req)
               depth) children, st2)
           | Option.none => Option.none) := rfl
      have hdeps : ∀ d ∈ (loadCore env pid (lower pid) req).dependencyIds,
          lower d.id ∈ space :=
        fun d hd => hclosure pid (lower pid) req d hd
      have hlen : (loadCore env pid (lower pid) req).dependencyIds.length
          ≤ maxDepsCount env :=
        loadCore_depIds_len env pid (lower pid) req
      have hkeys1 :
          ((st.visited ++ [(lower pid,
            freshNode env pid (loadCore env pid (lower pid) req) depth)]).map
              (·.1))
          = st.visited.map (·.1) ++ [lower pid] := by
        simp
      have hlt := uc_lt space (st.visited.map (·.1)) (lower pid) hpid hnv
      have hbound : unvisitedCount space
            (st.visited.map (·.1) ++ [lower pid]) * (maxDepsCount env + 2)
          + 1 + (loadCore env pid (lower pid) req).dependencyIds.length
          ≤ f := by
        have h1 : unvisitedCount space (st.visited.map (·.1) ++ [lower pid])
            ≤ unvisitedCount space (st.visited.map (·.1)) - 1 := by omega
        have h2 : unvisitedCount space (st.visited.map (·.1) ++ [lower pid])
              * (maxDepsCount env + 2)
            ≤ (unvisitedCount space (st.visited.map (·.1)) - 1)
              * (maxDepsCount env + 2) :=
          Nat.mul_le_mul_right _ h1
        have h3 : unvisitedCount space (st.visited.map (·.1))
              * (maxDepsCount env + 2)
            = (unvisitedCount space (st.visited.map (·.1)) - 1)
                * (maxDepsCount env + 2) + (maxDepsCount env + 2) := by
          obtain ⟨n, hn⟩ : ∃ n, unvisitedCount space (st.visited.map (·.1))
              = n + 1 :=
            ⟨unvisitedCount space (st.visited.map (·.1)) - 1, by omega⟩
          rw [hn, Nat.add_sub_cancel, Nat.add_mul, one_mul]
        omega
      obtain ⟨⟨children, st2⟩, hr, hpre⟩ :=
        (ih f (by omega)).2.2 (loadCore env pid (lower pid) req).dependencyIds
          (depth + 1) anc
          ⟨st.visited ++ [(lower pid,
              freshNode env pid (loadCore env pid (lower pid) req) depth)],
            if (loadCore env pid (lower pid) req).didFetch then
              st.fetched ++ [lower pid]
            else st.fetched⟩
          hdeps (by simpa using hbound)
      refine ⟨(.mk (freshNode env pid (loadCore env pid (lower pid) req) depth)
          children, st2), ?_, ?_⟩
      · rw [heq, hr]
      · exact List.IsPrefix.trans (List.prefix_append _ _) hpre
  · -- loadDeps
    intro deps depth anc st hdeps hfuel
    cases fuel with
    | zero => exact absurd hfuel (by omega)
    | succ f =>
      cases deps with
      | nil => exact ⟨([], st), rfl, List.prefix_refl _⟩
      | cons dep rest =>
        have hlen : (dep :: rest).length = rest.length + 1 := by simp
        have h1 : unvisitedCount space (st.visited.map (·.1))
            * (maxDepsCount env + 2) + 1 ≤ f := by omega
        obtain ⟨⟨child, st1⟩, hchild, hpre1⟩ :=
          (ih f (by omega)).1 dep.id depth Option.none anc st
            (hdeps dep (by simp)) h1
        have hu1 : unvisitedCount space (st1.visited.map (·.1))
            ≤ unvisitedCount space (st.visited.map (·.1)) :=
          uc_mono _ _ _ (hpre1.map (·.1)).subset
        have h2 : unvisitedCount space (st1.visited.map (·.1))
            * (maxDepsCount env + 2) + 1 + rest.length ≤ f := by
          have h3 : unvisitedCount space (st1.visited.map (·.1))
                * (maxDepsCount env + 2)
              ≤ unvisitedCount space (st.visited.map (·.1))
                * (maxDepsCount env + 2) :=
            Nat.mul_le_mul_right _ hu1
          omega
        obtain ⟨⟨children, st2⟩, hrest, hpre2⟩ :=
          (ih f (by omega)).2.2 rest depth anc st1
            (fun d hd => hdeps d (List.mem_cons_of_mem _ hd)) h2
        refine ⟨(child :: children, st2), ?_, hpre1.trans hpre2⟩
        have heq : loadDeps env (f + 1) (dep :: rest) depth anc st =
            (match loadPackage env f dep.id depth Option.none anc st with
             | Option.none => Option.none
             | some (child, st1) =>
               match loadDeps env f rest depth anc st1 with
               | Option.none => Option.none
               | some (children, st2) => some (child :: children, st2)) := rfl
        rw [heq, hchild]
        show (match loadDeps env f rest depth anc st1 with
          | Option.none => Option.none
          | some (children, st2) => some (child :: children, st2))
          = some (child :: children, st2)
        rw [hrest]

/-- `loadDependencyTree` always returns: the fuel budget computed from the id
space is sufficient. -/
theorem loadDependencyTree_total (env : LoaderEnv) (roots : List String) :
    ∃ r, loadDependencyTree env roots = some r := by
  have hclosure : ∀ (pid key : String) (req : Option String) (d : Dependency),
      d ∈ (loadCore env pid key req).dependencyIds →
        lower d.id ∈ idSpace env roots :=
    fun pid key req d hd => loadCore_depIds_space env roots pid key req d hd
  have h := (loader_total_aux env (idSpace env roots) hclosure
    (loaderFuel env roots)).2.2
  have hroots : ∀ d ∈ roots.map fun id => (⟨id, Option.none⟩ : Dependency),
      lower d.id ∈ idSpace env roots := by
    intro d hd
    simp only [List.mem_map] at hd
    obtain ⟨id, hid, rfl⟩ := hd
    unfold idSpace
    simp only [List.mem_append]
    left; left
    exact List.mem_map_of_mem _ hid
  have hfilter : (idSpace env roots).dedup.filter
      (fun k => !(((⟨[], []⟩ : LoaderState).visited.map (·.1)).contains k))
      = (idSpace env roots).dedup := by
    apply List.filter_eq_self.2
    intro a _
    rfl
  have hbound : unvisitedCount (idSpace env roots)
        (((⟨[], []⟩ : LoaderState).visited.map (·.1)))
        * (maxDepsCount env + 2) + 1
        + (roots.map fun id => (⟨id, Option.none⟩ : Dependency)).length
      ≤ loaderFuel env roots := by
    unfold unvisitedCount loaderFuel
    rw [hfilter]
    simp only [List.length_map]
    omega
  obtain ⟨r, hr, _⟩ := h (roots.map fun id => ⟨id, Option.none⟩) 0 [] ⟨[], []⟩
    hroots hbound
  exact ⟨r, hr⟩

theorem memoLookup_mem (m : List (String × PkgData)) (k : String) (v : PkgData)
    (h : memoLookup m k = some v) : (k, v) ∈ m := by
  induction m with
  | nil => simp [memoLookup] at h
  | cons e rest ih =>
    obtain ⟨k1, v1⟩ := e
    by_cases hk : k1 = k
    · subst hk
      simp only [memoLookup, if_pos rfl, Option.some.injEq, if_true,
        eq_self_iff_true] at h
      simp [h]
    · simp only [memoLookup, if_neg hk] at h
      exact List.mem_cons_of_mem _ (ih h)

/-- Master loader postcondition: a successful call appends only well-formed
fresh entries to `visited`, preserves state well-formedness, and produces a
tree the canonical scan `cT`/`cL` accepts against the pre-state `visited` map
(ending exactly at the post-state map).  The ancestor chain is always a subset
of the visited keys, which is why the cyclic branch never fires. -/
theorem loader_post_aux (env : LoaderEnv) : ∀ fuel : Nat,
    (∀ (pid : String) (depth : Nat) (req : Option String) (anc : List String)
        (st : LoaderState) (node : MigrationPackage) (st2 : LoaderState),
      loadPackage env fuel pid depth req anc st = some (node, st2) →
      WfSt st → (∀ a ∈ anc, a ∈ st.visited.map (·.1)) →
      (∃ Δ, st2.visited = st.visited ++ Δ ∧ EntriesOk env Δ)
        ∧ WfSt st2 ∧ cT st.visited node = some st2.visited)
    ∧ (∀ (pid : String) (depth : Nat) (req : Option String) (anc : List String)
        (st : LoaderState) (node : MigrationPackage) (st2 : LoaderState),
      loadPackageImpl env fuel pid (lower pid) depth req anc st
          = some (node, st2) →
      WfSt st → lower pid ∉ st.visited.map (·.1) →
      (∀ a ∈ anc, a ∈ st.visited.map (·.1) ++ [lower pid]) →
      (∃ Δ, st2.visited = st.visited ++ Δ ∧ EntriesOk env Δ)
        ∧ WfSt st2 ∧ cT st.visited node = some st2.visited)
    ∧ (∀ (deps : List Dependency) (depth : Nat) (anc : List String)
        (st : LoaderState) (out : List MigrationPackage) (st2 : LoaderState),
      loadDeps env fuel deps depth anc st = some (out, st2) →
      WfSt st → (∀ a ∈ anc, a ∈ st.visited.map (·.1)) →
      (∃ Δ, st2.visited = st.visited ++ Δ ∧ EntriesOk env Δ)
        ∧ WfSt st2 ∧ cL st.visited out = some st2.visited
        ∧ out.length = deps.length) := by
  intro fuel
  induction fuel with
  | zero =>
    refine ⟨?_, ?_, ?_⟩
    · intro pid depth req anc st node st2 h
      simp [loadPackage] at h
    · intro pid depth req anc st node st2 h
      simp [loadPackageImpl] at h
    · intro deps depth anc st out st2 h
      simp [loadDeps] at h
  | succ f ih =>
    refine ⟨?_, ?_, ?_⟩
    · -- loadPackage
      intro pid depth req anc st node st2 h hwf hanc
      have heq : loadPackage env (f + 1) pid depth req anc st =
          (match memoLookup st.visited (lower pid) with
           | some existing => some (sharedStub existing depth, st)
           | Option.none =>
             if anc.contains (lower pid) then
               some (.mk (cyclicNode env pid req depth) [], st)
             else
               loadPackageImpl env f pid (lower pid) depth req
                 ((lower pid) :: anc) st) := rfl
      rw [heq] at h
      cases hlook : memoLookup st.visited (lower pid) with
      | some existing =>
        rw [hlook] at h
        simp only [Option.some.injEq, Prod.mk.injEq] at h
        obtain ⟨h1, h2⟩ := h
        subst h1
        subst h2
        refine ⟨⟨[], by simp, by intro e he; cases he⟩, hwf, ?_⟩
        have hkey : lower pid = lower existing.id :=
          hwf.2.1 _ (memoLookup_mem _ _ _ hlook)
        show cT st.visited (sharedStub existing depth) = some st.visited
        simp only [sharedStub, cT]
        rw [show lower ({ existing with
            depth := depth
            isSharedReference := true } : PkgData).id = lower pid
          from hkey.symm]
        rw [hlook]
        simp [sharedOf]
      | none =>
        rw [hlook] at h
        by_cases hanc2 : anc.contains (lower pid)
        · exfalso
          have hm := hanc (lower pid) (List.mem_of_elem_eq_true hanc2)
          exact absurd hm ((memoLookup_eq_none_iff _ _).1 hlook)
        · rw [if_neg hanc2] at h
          have hnv : lower pid ∉ st.visited.map (·.1) :=
            (memoLookup_eq_none_iff _ _).1 hlook
          refine (ih.2.1 pid depth req (lower pid :: anc) st node st2 h hwf hnv
            ?_)
          intro a ha
          rcases List.mem_cons.1 ha with rfl | ha2
          · exact List.mem_append.2 (Or.inr (by simp))
          · exact List.mem_append.2 (Or.inl (hanc a ha2))
    · -- loadPackageImpl
      intro pid depth req anc st node st2 h hwf hnv hanc
      have heq : loadPackageImpl env (f + 1) pid (lower pid) depth req anc st =
          (match loadDeps env f
              (loadCore env pid (lower pid) req).dependencyIds (depth + 1) anc
              ⟨st.visited ++ [(lower pid,
                  freshNode env pid (loadCore env pid (lower pid) req) depth)],
                if (loadCore env pid (lower pid) req).didFetch then
                  st.fetched ++ [lower pid]
                else st.fetched⟩ with
           | some (children, st3) =>
             some (.mk (freshNode env pid (loadCore env pid (lower pid) req)
               depth) children, st3)
           | Option.none => Option.none) := rfl
      rw [heq] at h
      have hwf1 : WfSt ⟨st.visited ++ [(lower pid,
          freshNode env pid (loadCore env pid (lower pid) req) depth)],
          if (loadCore env pid (lower pid) req).didFetch then
            st.fetched ++ [lower pid]
          else st.fetched⟩ := by
        obtain ⟨hnd, hkeys, hfnd, hfsub⟩ := hwf
        refine ⟨?_, ?_, ?_, ?_⟩
        · simp only [List.map_append, List.map_cons, List.map_nil]
          rw [List.nodup_append]
          exact ⟨hnd, List.nodup_singleton _,
            by intro a ha hb; simp at hb; subst hb; exact hnv ha⟩
        · intro e he
          rcases List.mem_append.1 he with he2 | he2
          · exact hkeys e he2
          · simp only [List.mem_singleton] at he2
            subst he2
            rfl
        · by_cases hdf : (loadCore env pid (lower pid) req).didFetch
          · rw [if_pos hdf]
            rw [List.nodup_append]
            refine ⟨hfnd, List.nodup_singleton _, ?_⟩
            intro a ha hb
            simp at hb
            subst hb
            exact hnv (hfsub _ ha)
          · rw [if_neg hdf]
            exact hfnd
        · intro k hk
          simp only [List.map_append, List.map_cons, List.map_nil,
            List.mem_append]
          by_cases hdf : (loadCore env pid (lower pid) req).didFetch
          · rw [if_pos hdf] at hk
            rcases List.mem_append.1 hk with hk2 | hk2
            · exact Or.inl (hfsub _ hk2)
            · simp only [List.mem_singleton] at hk2
              subst hk2
              exact Or.inr (by simp)
          · rw [if_neg hdf] at hk
            exact Or.inl (hfsub _ hk)
      cases hdeps : loadDeps env f
          (loadCore env pid (lower pid) req).dependencyIds (depth + 1) anc
          ⟨st.visited ++ [(lower pid,
              freshNode env pid (loadCore env pid (lower pid) req) depth)],
            if (loadCore env pid (lower pid) req).didFetch then
              st.fetched ++ [lower pid]
            else st.fetched⟩ with
      | none =>
        rw [hdeps] at h
        simp at h
      | some r =>
        obtain ⟨children, st3⟩ := r
        rw [hdeps] at h
        simp only [Option.some.injEq, Prod.mk.injEq] at h
        obtain ⟨h1, h2⟩ := h
        subst h1
        subst h2
        have hancs : ∀ a ∈ anc,
            a ∈ (LoaderState.visited ⟨st.visited ++ [(lower pid,
              freshNode env pid (loadCore env pid (lower pid) req) depth)],
              if (loadCore env pid (lower pid) req).didFetch then
                st.fetched ++ [lower pid]
              else st.fetched⟩).map (·.1) := by
          intro a ha
          have := hanc a ha
          simpa using this
        obtain ⟨⟨Δc, hΔc, hok⟩, hwf2, hcL, _⟩ :=
          ih.2.2 _ _ _ _ _ _ hdeps hwf1 hancs
        refine ⟨⟨(lower pid,
            freshNode env pid (loadCore env pid (lower pid) req) depth) :: Δc,
            ?_, ?_⟩, hwf2, ?_⟩
        · simp only [LoaderState.visited] at hΔc
          rw [hΔc, List.append_assoc]
          rfl
        · intro e he
          rcases List.mem_cons.1 he with rfl | he2
          · exact ⟨pid, req, depth, rfl, rfl⟩
          · exact hok e he2
        · show cT st.visited (.mk (freshNode env pid
            (loadCore env pid (lower pid) req) depth) children)
            = some st3.visited
          simp only [cT]
          rw [show lower (freshNode env pid
              (loadCore env pid (lower pid) req) depth).id = lower pid
            from rfl]
          rw [(memoLookup_eq_none_iff st.visited (lower pid)).2 hnv]
          exact hcL
    · -- loadDeps
      intro deps depth anc st out st2 h hwf hanc
      cases deps with
      | nil =>
        have heq : loadDeps env (f + 1) ([] : List Dependency) depth anc st
            = some ([], st) := rfl
        rw [heq] at h
        simp only [Option.some.injEq, Prod.mk.injEq] at h
        obtain ⟨h1, h2⟩ := h
        subst h1
        subst h2
        exact ⟨⟨[], by simp, by intro e he; cases he⟩, hwf, rfl, rfl⟩
      | cons dep rest =>
        have heq : loadDeps env (f + 1) (dep :: rest) depth anc st =
            (match loadPackage env f dep.id depth Option.none anc st with
             | Option.none => Option.none
             | some (child, st1) =>
               match loadDeps env f rest depth anc st1 with
               | Option.none => Option.none
               | some (children, st3) => some (child :: children, st3)) := rfl
        rw [heq] at h
        cases hchild : loadPackage env f dep.id depth Option.none anc st with
        | none =>
          rw [hchild] at h
          simp at h
        | some r1 =>
          obtain ⟨child, st1⟩ := r1
          rw [hchild] at h
          replace h : (match loadDeps env f rest depth anc st1 with
              | Option.none =>
                (Option.none : Option (List MigrationPackage × LoaderState))
              | some (children, st3) => some (child :: children, st3))
              = some (out, st2) := h
          cases hrest : loadDeps env f rest depth anc st1 with
          | none =>
            rw [hrest] at h
            simp at h
          | some r2 =>
            obtain ⟨children, st3⟩ := r2
            rw [hrest] at h
            simp only [Option.some.injEq, Prod.mk.injEq] at h
            obtain ⟨h1, h2⟩ := h
            subst h1
            subst h2
            obtain ⟨⟨Δ1, hΔ1, hok1⟩, hwf1, hcT1⟩ :=
              ih.1 dep.id depth Option.none anc st child st1 hchild hwf hanc
            have hanc1 : ∀ a ∈ anc, a ∈ st1.visited.map (·.1) := by
              intro a ha
              rw [hΔ1]
              simp only [List.map_append, List.mem_append]
              exact Or.inl (hanc a ha)
            obtain ⟨⟨Δ2, hΔ2, hok2⟩, hwf2, hcL2, hlen2⟩ :=
              ih.2.2 rest depth anc st1 children st3 hrest hwf1 hanc1
            refine ⟨⟨Δ1 ++ Δ2, ?_, ?_⟩, hwf2, ?_, ?_⟩
            · rw [hΔ2, hΔ1, List.append_assoc]
            · intro e he
              rcases List.mem_append.1 he with he2 | he2
              · exact hok1 e he2
              · exact hok2 e he2
            · show cL st.visited (child :: children) = some st3.visited
              simp only [cL]
              rw [hcT1]
              exact hcL2
            · simp [hlen2]

/-- Loader postcondition at the entry point: the final `visited` map is made
of fresh well-formed entries, the forest passes the canonical scan from the
empty map, and every root yields exactly one tree. -/
theorem loadDependencyTree_post (env : LoaderEnv) (roots : List String)
    (out : List MigrationPackage) (st : LoaderState)
    (h : loadDependencyTree env roots = some (out, st)) :
    EntriesOk env st.visited ∧ WfSt st ∧ cL [] out = some st.visited
      ∧ out.length = roots.length := by
  have h0 : loadDeps env (loaderFuel env roots)
      (roots.map fun id => ⟨id, Option.none⟩) 0 [] ⟨[], []⟩ = some (out, st) := h
  have hwf0 : WfSt ⟨[], []⟩ := by
    refine ⟨by simp, by simp, by simp, by simp⟩
  obtain ⟨⟨Δ, hΔ, hok⟩, hwf, hcL, hlen⟩ :=
    (loader_post_aux env (loaderFuel env roots)).2.2 _ _ _ _ _ _ h0 hwf0
      (by intro a ha; cases ha)
  refine ⟨?_, hwf, hcL, by simpa using hlen⟩
  have hΔ2 : st.visited = Δ := by simpa using hΔ
  rw [hΔ2]
  exact hok

mutual
/-- Occurrence facts the canonical scan guarantees for a tree: the final map
extends the initial one exactly by the non-shared occurrences in preorder;
every shared occurrence is a stub of a recorded entry, every non-shared
occurrence is itself recorded. -/
theorem cT_master (vs : List (String × PkgData)) (p : MigrationPackage)
    (vs' : List (String × PkgData)) (h : cT vs p = some vs')
    (hall : ∀ e ∈ vs', e.2.isSharedReference = false) :
    (∃ ext, vs' = vs ++ ext
      ∧ ((occList p).filter fun o => !o.data.isSharedReference).map
          (fun o => (lower o.data.id, o.data)) = ext)
    ∧ (∀ o ∈ occList p,
        (o.data.isSharedReference = true →
          o.dependencies = [] ∧ ∃ d0, (lower o.data.id, d0) ∈ vs'
            ∧ o.data = sharedOf d0 o.data.depth)
        ∧ (o.data.isSharedReference = false →
          (lower o.data.id, o.data) ∈ vs')) := by
  obtain ⟨d, deps⟩ := p
  rw [cT] at h
  cases hlook : memoLookup vs (lower d.id) with
  | some d0 =>
    rw [hlook] at h
    replace h : (if d = sharedOf d0 d.depth then
        if deps = ([] : List MigrationPackage) then some vs else Option.none
      else Option.none) = some vs' := h
    by_cases hsh : d = sharedOf d0 d.depth
    · rw [if_pos hsh] at h
      by_cases hdeps : deps = ([] : List MigrationPackage)
      · rw [if_pos hdeps] at h
        simp only [Option.some.injEq] at h
        subst h
        subst hdeps
        have hflag : d.isSharedReference = true := by
          rw [hsh]
          rfl
        refine ⟨⟨[], by simp, ?_⟩, ?_⟩
        · simp [occList, occListF, MigrationPackage.data, List.filter_cons,
            hflag]
        · intro o ho
          simp only [occList, occListF, List.mem_singleton] at ho
          subst ho
          refine ⟨fun _ => ⟨rfl, d0, memoLookup_mem _ _ _ hlook, ?_⟩,
            fun hf => ?_⟩
          · exact hsh
          · rw [MigrationPackage.data] at hf
            rw [hflag] at hf
            cases hf
      · rw [if_neg hdeps] at h
        cases h
    · rw [if_neg hsh] at h
      cases h
  | none =>
    rw [hlook] at h
    replace h : cL (vs ++ [(lower d.id, d)]) deps = some vs' := h
    obtain ⟨⟨ext2, hvs', hmap⟩, hfacts⟩ :=
      cL_master (vs ++ [(lower d.id, d)]) deps vs' h hall
    have hmem : (lower d.id, d) ∈ vs' := by
      rw [hvs']
      simp
    have hflag : d.isSharedReference = false := hall _ hmem
    refine ⟨⟨(lower d.id, d) :: ext2, by rw [hvs']; simp, ?_⟩, ?_⟩
    · simp only [occList, List.filter_cons, MigrationPackage.data, hflag,
        Bool.not_false, if_true, List.map_cons]
      rw [List.cons.injEq]
      exact ⟨rfl, hmap⟩
    · intro o ho
      rw [occList] at ho
      rcases List.mem_cons.1 ho with rfl | ho2
      · refine ⟨fun ht => ?_, fun _ => hmem⟩
        rw [MigrationPackage.data] at ht
        rw [hflag] at ht
        cases ht
      · exact hfacts o ho2
/-- Forest version of `cT_master`. -/
theorem cL_master (vs : List (String × PkgData)) (l : List MigrationPackage)
    (vs' : List (String × PkgData)) (h : cL vs l = some vs')
    (hall : ∀ e ∈ vs', e.2.isSharedReference = false) :
    (∃ ext, vs' = vs ++ ext
      ∧ ((occListF l).filter fun o => !o.data.isSharedReference).map
          (fun o => (lower o.data.id, o.data)) = ext)
    ∧ (∀ o ∈ occListF l,
        (o.data.isSharedReference = true →
          o.dependencies = [] ∧ ∃ d0, (lower o.data.id, d0) ∈ vs'
            ∧ o.data = sharedOf d0 o.data.depth)
        ∧ (o.data.isSharedReference = false →
          (lower o.data.id, o.data) ∈ vs')) := by
  cases l with
  | nil =>
    rw [cL] at h
    simp only [Option.some.injEq] at h
    subst h
    exact ⟨⟨[], by simp, by simp [occListF]⟩, by intro o ho; cases ho⟩
  | cons p rest =>
    rw [cL] at h
    cases hcT : cT vs p with
    | none =>
      rw [hcT] at h
      cases h
    | some vs1 =>
      rw [hcT] at h
      obtain ⟨⟨ext2, hvs', hmap2⟩, hfacts2⟩ := cL_master vs1 rest vs' h hall
      have hall1 : ∀ e ∈ vs1, e.2.isSharedReference = false := by
        intro e he
        refine hall e ?_
        rw [hvs']
        exact List.mem_append.2 (Or.inl he)
      obtain ⟨⟨ext1, hvs1, hmap1⟩, hfacts1⟩ := cT_master vs p vs1 hcT hall1
      have hfacts1' : ∀ o ∈ occList p,
          (o.data.isSharedReference = true →
            o.dependencies = [] ∧ ∃ d0, (lower o.data.id, d0) ∈ vs'
              ∧ o.data = sharedOf d0 o.data.depth)
          ∧ (o.data.isSharedReference = false →
            (lower o.data.id, o.data) ∈ vs') := by
        intro o ho
        obtain ⟨hA, hB⟩ := hfacts1 o ho
        refine ⟨fun ht => ?_, fun hf => ?_⟩
        · obtain ⟨hdep, d0, hd0, hdata⟩ := hA ht
          exact ⟨hdep, d0, by rw [hvs']; exact List.mem_append.2 (Or.inl hd0),
            hdata⟩
        · rw [hvs']
          exact List.mem_append.2 (Or.inl (hB hf))
      refine ⟨⟨ext1 ++ ext2, ?_, ?_⟩, ?_⟩
      · rw [hvs', hvs1, List.append_assoc]
      · simp only [occListF, List.filter_append, List.map_append]
        rw [hmap1, hmap2]
      · intro o ho
        rw [occListF] at ho
        rcases List.mem_append.1 ho with ho2 | ho2
        · exact hfacts1' o ho2
        · exact hfacts2 o ho2
end

theorem count_filter_key {α : Type} (l : List α) (p : α → Bool)
    (f : α → String) (k : String) :
    (l.filter fun o => p o && (f o == k)).length
      = ((l.filter p).map f).count k := by
  induction l with
  | nil => simp
  | cons a t ih =>
    by_cases hp : p a = true
    · by_cases hk : f a = k
      · simp [List.filter_cons, hp, hk, List.count_cons, ih]
      · simp [List.filter_cons, hp, hk, List.count_cons, ih]
    · simp [List.filter_cons, hp, ih]

theorem nodup_keys_val_eq {β : Type} (m : List (String × β))
    (hnd : (m.map (·.1)).Nodup) (k : String) (v1 v2 : β)
    (h1 : (k, v1) ∈ m) (h2 : (k, v2) ∈ m) : v1 = v2 := by
  induction m with
  | nil => cases h1
  | cons e t ih =>
    obtain ⟨k1, w⟩ := e
    simp only [List.map_cons, List.nodup_cons] at hnd
    rcases List.mem_cons.1 h1 with he1 | h1'
    · injection he1 with hk1 hv1
      rcases List.mem_cons.1 h2 with he2 | h2'
      · injection he2 with hk2 hv2
        rw [hv1, hv2]
      · exfalso
        apply hnd.1
        rw [← hk1]
        exact List.mem_map_of_mem _ h2'
    · rcases List.mem_cons.1 h2 with he2 | h2'
      · injection he2 with hk2 hv2
        exfalso
        apply hnd.1
        rw [← hk2]
        exact List.mem_map_of_mem _ h1'
      · exact ih hnd.2 h1' h2'

/-- All `visited` entries of a loader run have the shared flag off. -/
theorem entries_flags (env : LoaderEnv) (m : List (String × PkgData))
    (hok : EntriesOk env m) : ∀ e ∈ m, e.2.isSharedReference = false := by
  intro e he
  obtain ⟨pid, req, depth2, _, hd⟩ := hok e he
  rw [hd]
  rfl

/-- C1: (amended) For every root set — cyclic or not — `loadDependencyTree`
terminates with a tree, never fetches the same package's metadata twice, and
marks NO occurrence `isCyclic` (every node, shared stubs included, keeps
`isCyclic = false` and `status = "ready"`): the ancestor-chain cycle branch of
`loadPackage` is unreachable, because a package is registered in `visited`
before its dependencies are loaded, so a back-edge is served as a shared
reference instead. -/
theorem C1_cycle_termination :
    ∀ (env : LoaderEnv) (roots : List String),
      ∃ out st, loadDependencyTree env roots = some (out, st)
        ∧ st.fetched.Nodup
        ∧ ∀ o ∈ occListF out, o.data.isCyclic = false
          ∧ o.data.status = Status.ready := by
  intro env roots
  obtain ⟨⟨out, st⟩, hr⟩ := loadDependencyTree_total env roots
  obtain ⟨hok, hwf, hcL, _⟩ := loadDependencyTree_post env roots out st hr
  refine ⟨out, st, hr, hwf.2.2.1, ?_⟩
  obtain ⟨_, hfacts⟩ :=
    cL_master [] out st.visited hcL (entries_flags env st.visited hok)
  intro o ho
  obtain ⟨hA, hB⟩ := hfacts o ho
  by_cases hsh : o.data.isSharedReference = true
  · obtain ⟨hdep, d0, hd0, hdata⟩ := hA hsh
    obtain ⟨pid, req, depth2, _, hd⟩ := hok _ hd0
    have hd2 : d0 = freshNode env pid (loadCore env pid (lower pid) req)
        depth2 := hd
    rw [hdata, hd2]
    exact ⟨rfl, rfl⟩
  · have hf : o.data.isSharedReference = false := by
      cases hflag : o.data.isSharedReference
      · rfl
      · exact absurd hflag hsh
    obtain ⟨pid, req, depth2, _, hd⟩ := hok _ (hB hf)
    have hd2 : o.data = freshNode env pid (loadCore env pid (lower pid) req)
        depth2 := hd
    rw [hd2]
    exact ⟨rfl, rfl⟩

/-- C1 counterexample: on the claim's own A→B→A input the run terminates with
occurrences a, b, a — but the second occurrence of A has `isCyclic = false`
and is NOT `blocked` (it is a ready shared stub), and each package is fetched
exactly once; the claimed `isCyclic=true, status=blocked` marking never
happens. -/
theorem C1_counterexample :
    (match loadDependencyTree cycEnv ["A"] with
     | some (out, st) =>
       some (((occListF out).map fun o =>
         (lower o.data.id, o.data.isCyclic, o.data.status == Status.blocked)),
         st.fetched)
     | Option.none => Option.none)
    = some ([(lower "A", false, false), (lower "B", false, false),
        (lower "A", false, false)], [lower "A", lower "B"]) := by
  decide

/-- C2: (amended) In every tree returned by `loadDependencyTree`, for every
occurrence of a package id (case-insensitive), exactly one occurrence of that
id in the whole forest has `isSharedReference = false`; every occurrence with
`isSharedReference = true` has an empty dependency list and carries the
resolved version and status of the unique non-shared occurrence of its id.
(The original claim's "non-empty dependencies" is wrong for leaf packages:
the expanded occurrence of a dependency-free package has empty
`dependencies`, see the counterexample.) -/
theorem C2_dedup_invariant :
    ∀ (env : LoaderEnv) (roots : List String) (out : List MigrationPackage)
      (st : LoaderState),
      loadDependencyTree env roots = some (out, st) →
      ∀ o ∈ occListF out,
        ((occListF out).filter fun o2 =>
          !o2.data.isSharedReference
            && (lower o2.data.id == lower o.data.id)).length = 1
        ∧ (o.data.isSharedReference = true →
            o.dependencies = []
            ∧ ∀ o2 ∈ occListF out, o2.data.isSharedReference = false →
                lower o2.data.id = lower o.data.id →
                o.data.version = o2.data.version
                ∧ o.data.status = o2.data.status) := by
  intro env roots out st hr o ho
  obtain ⟨hok, hwf, hcL, _⟩ := loadDependencyTree_post env roots out st hr
  obtain ⟨⟨ext, hext, hmap⟩, hfacts⟩ :=
    cL_master [] out st.visited hcL (entries_flags env st.visited hok)
  have hmap2 : ((occListF out).filter fun o2 =>
      !o2.data.isSharedReference).map (fun o2 => (lower o2.data.id, o2.data))
      = st.visited := by
    rw [hmap]
    simpa using hext.symm
  have hkeys : ((occListF out).filter fun o2 =>
      !o2.data.isSharedReference).map (fun o2 => lower o2.data.id)
      = st.visited.map (·.1) := by
    rw [← hmap2, List.map_map]
    rfl
  have hkmem : lower o.data.id ∈ st.visited.map (·.1) := by
    obtain ⟨hA, hB⟩ := hfacts o ho
    by_cases hsh : o.data.isSharedReference = true
    · obtain ⟨_, d0, hd0, _⟩ := hA hsh
      exact List.mem_map_of_mem _ hd0
    · have hf : o.data.isSharedReference = false := by
        cases hflag : o.data.isSharedReference
        · rfl
        · exact absurd hflag hsh
      exact List.mem_map_of_mem _ (hB hf)
  constructor
  · rw [count_filter_key (occListF out)
      (fun o2 => !o2.data.isSharedReference) (fun o2 => lower o2.data.id)
      (lower o.data.id)]
    rw [hkeys]
    exact List.count_eq_one_of_mem hwf.1 hkmem
  · intro hsh
    obtain ⟨hA, _⟩ := hfacts o ho
    obtain ⟨hdep, d0, hd0, hdata⟩ := hA hsh
    refine ⟨hdep, ?_⟩
    intro o2 ho2 hf2 hk2
    obtain ⟨_, hB2⟩ := hfacts o2 ho2
    have hmem2 := hB2 hf2
    rw [hk2] at hmem2
    have hval : o2.data = d0 := nodup_keys_val_eq st.visited hwf.1 _ _ _
      hmem2 hd0
    rw [hdata, hval]
    exact ⟨rfl, rfl⟩

/-- C2 counterexample: with roots A and B both depending on the leaf package
C, the id c occurs twice, but NO occurrence of it has non-empty
`dependencies` — the expanded occurrence (under A, `isSharedReference =
false`) is a leaf with an empty list, refuting "exactly one occurrence has
isSharedReference absent/false AND non-empty dependencies". -/
theorem C2_counterexample :
    (match loadDependencyTree diamondEnv ["A", "B"] with
     | some (out, _) =>
       some (((occListF out).filter fun o =>
         lower o.data.id == lower "C").map
         fun o => (o.data.isSharedReference, o.dependencies.length))
     | Option.none => Option.none)
    = some [(false, 0), (true, 0)] := by
  decide

/-- C2 witness: the invariant instantiated on the concrete diamond A→C, B→C. -/
theorem C2_dedup_invariant_witness :
    ∃ out st, loadDependencyTree diamondEnv ["A", "B"] = some (out, st)
      ∧ ∀ o ∈ occListF out,
        ((occListF out).filter fun o2 =>
          !o2.data.isSharedReference
            && (lower o2.data.id == lower o.data.id)).length = 1 := by
  obtain ⟨⟨out, st⟩, hr⟩ := loadDependencyTree_total diamondEnv ["A", "B"]
  exact ⟨out, st, hr, fun o ho =>
    (C2_dedup_invariant diamondEnv ["A", "B"] out st hr o ho).1⟩

/-- C9: fetch failures are swallowed locally.  (1) No run of
`loadDependencyTree` ever aborts: it always returns a forest with exactly one
tree per requested root, whatever lookups fail.  (2) When the versions fetch
throws (no registry entry) and the cache misses, the node's version list
defaults to `[requestedVersion]` or `[]`.  (3) When the details fetch throws
for the chosen version, the dependency ids and target frameworks default to
empty — the node is still created from this partial data. -/
theorem C9_fetch_failure_tolerance :
    ∀ (env : LoaderEnv) (roots : List String),
      (∃ out st, loadDependencyTree env roots = some (out, st)
        ∧ out.length = roots.length)
      ∧ (∀ (pid key : String) (req : Option String),
          env.cacheGet key = Option.none →
          env.getPackageVersions pid = Option.none →
          (loadCore env pid key req).versions
            = (match truthyStr req with
               | some r => [r]
               | Option.none => []))
      ∧ (∀ (pid key : String) (req : Option String),
          env.cacheGet key = Option.none →
          env.getPackageDetails pid ((loadCore env pid key req).version)
            = Option.none →
          (loadCore env pid key req).dependencyIds = []
          ∧ (loadCore env pid key req).targetFrameworks = []) := by
  intro env roots
  refine ⟨?_, ?_, ?_⟩
  · obtain ⟨⟨out, st⟩, hr⟩ := loadDependencyTree_total env roots
    obtain ⟨_, _, _, hlen⟩ := loadDependencyTree_post env roots out st hr
    exact ⟨out, st, hr, hlen⟩
  · intro pid key req hc hv
    unfold loadCore
    rw [hc, hv]
  · intro pid key req hc hd
    have hver : (loadCore env pid key req).version
        = pickVersion env.devVersionFilter
          (match env.getPackageVersions pid with
           | some vs => vs
           | Option.none =>
             match truthyStr req with
             | some r => [r]
             | Option.none => []) req := by
      unfold loadCore
      rw [hc]
    rw [hver] at hd
    unfold loadCore
    rw [hc]
    simp only []
    rw [hd]
    exact ⟨rfl, rfl⟩

/-- C9 witness: with every fetch failing, two roots still produce two nodes,
and the defaults are the empty version list, no dependencies and no declared
frameworks. -/
theorem C9_fetch_failure_tolerance_witness :
    (∃ out st, loadDependencyTree failEnv ["A", "B"] = some (out, st)
      ∧ out.length = 2)
    ∧ (loadCore failEnv "A" (lower "A") Option.none).versions = []
    ∧ (loadCore failEnv "A" (lower "A") Option.none).dependencyIds = []
    ∧ (loadCore failEnv "A" (lower "A") Option.none).targetFrameworks = [] := by
  have h := C9_fetch_failure_tolerance failEnv ["A", "B"]
  obtain ⟨⟨out, st, hr, hlen⟩, h2, h3⟩ := h
  refine ⟨⟨out, st, hr, by simpa using hlen⟩, ?_, ?_, ?_⟩
  · exact h2 "A" (lower "A") Option.none rfl rfl
  · exact (h3 "A" (lower "A") Option.none rfl (by decide)).1
  · exact (h3 "A" (lower "A") Option.none rfl (by decide)).2

theorem truthyStr_some (v : String) (h : v ≠ "") :
    truthyStr (some v) = some v := by
  unfold truthyStr
  split
  · next heq =>
    injection heq with heq2
    exact absurd heq2 h
  · rfl

theorem containsSubstr_ne_empty (v : String)
    (h : containsSubstr v "-" = true) : v ≠ "" := by
  intro hv
  subst hv
  exact absurd h (by decide)

/-- C6: (amended) When no version string of the package is empty — every real
registry answer — `pickVersion` with no requested version follows exactly the
claimed policy chain, and that is the version `loadCore` stores for an
uncached package.  (On a list containing the empty string the code diverges
from the policy: JS `||` treats `""` as absent, see the counterexample.) -/
theorem C6_version_selection :
    ∀ (env : LoaderEnv) (pid key : String) (versions : List String),
      env.cacheGet key = Option.none →
      env.getPackageVersions pid = some versions →
      "" ∉ versions →
      (loadCore env pid key Option.none).version
        = specVersionChoice env.devVersionFilter versions := by
  intro env pid key versions hc hv hne
  have hver : (loadCore env pid key Option.none).version
      = pickVersion env.devVersionFilter versions Option.none := by
    unfold loadCore
    rw [hc]
    simp only []
    rw [hv]
  rw [hver]
  unfold pickVersion specVersionChoice
  simp only []
  cases hdev : (if env.devVersionFilter ≠ "" then
      versions.find? fun v =>
        containsSubstr v "-"
          && containsSubstr (lower v) (lower env.devVersionFilter)
    else Option.none) with
  | some v =>
    have hvne : v ≠ "" := by
      by_cases hdf : env.devVersionFilter ≠ ""
      · rw [if_pos hdf] at hdev
        have hp := List.find?_some hdev
        exact containsSubstr_ne_empty v (Bool.and_elim_left hp)
      · rw [if_neg hdf] at hdev
        cases hdev
    rw [truthyStr_some v hvne]
    rfl
  | none =>
    rw [show truthyStr Option.none = Option.none from rfl]
    cases hstable : versions.find? fun v => !containsSubstr v "-" with
    | some v =>
      have hvne : v ≠ "" := by
        intro hveq
        exact hne (hveq ▸ List.mem_of_find?_eq_some hstable)
      rw [truthyStr_some v hvne]
    | none =>
      cases versions with
      | nil => rfl
      | cons x t =>
        have hxne : x ≠ "" := by
          intro hxeq
          exact hne (by rw [hxeq] at *; exact List.mem_cons_self _ _)
        rw [show (x :: t).head? = some x from rfl, truthyStr_some x hxne]
        rfl

/-- C6 counterexample: on the non-empty version list `[""]` the policy chain
of the claim selects the first dash-free version, the empty string — but the
code's JS-truthiness `||` chain drops it and stores `"unknown"` although the
version list is not empty. -/
theorem C6_counterexample :
    ((loadCore emptyVerEnv "P" (lower "P") Option.none).version,
      specVersionChoice "" [""])
    = ("unknown", "") := by
  decide

/-- C6 witness: the policy instantiated on a dev-filter environment picks the
prerelease match. -/
theorem C6_version_selection_witness :
    (loadCore c6Env "P" (lower "P") Option.none).version
      = specVersionChoice "beta" ["2.0.0-beta", "1.5.0"]
    ∧ specVersionChoice "beta" ["2.0.0-beta", "1.5.0"] = "2.0.0-beta" := by
  refine ⟨?_, by decide⟩
  exact C6_version_selection c6Env "P" (lower "P") ["2.0.0-beta", "1.5.0"]
    rfl rfl (by decide)

theorem jsIndexOf_neg_one_le (l : List String) (x : String) :
    -1 ≤ jsIndexOf l x := by
  induction l with
  | nil => simp [jsIndexOf]
  | cons a t ih =>
    by_cases ha : a = x
    · simp [jsIndexOf, ha]
    · by_cases hr : jsIndexOf t x = -1
      · simp [jsIndexOf, ha, hr]
      · simp only [jsIndexOf, if_neg ha, if_neg hr]
        omega

theorem jsIndexOf_eq_neg_one (l : List String) (x : String) :
    jsIndexOf l x = -1 ↔ x ∉ l := by
  induction l with
  | nil => simp [jsIndexOf]
  | cons a t ih =>
    by_cases ha : a = x
    · subst ha
      simp [jsIndexOf]
    · by_cases hr : jsIndexOf t x = -1
      · simp only [jsIndexOf, if_neg ha, if_pos hr, List.mem_cons]
        have := ih.1 hr
        constructor
        · intro _ hc
          rcases hc with hc | hc
          · exact ha hc.symm
          · exact this hc
        · intro _
          trivial
      · simp only [jsIndexOf, if_neg ha, if_neg hr, List.mem_cons]
        have h1 := jsIndexOf_neg_one_le t x
        constructor
        · intro hc
          omega
        · intro hc
          exfalso
          apply hc
          right
          by_contra hm
          exact hr (ih.2 hm)

theorem jsIndexOf_nonneg (l : List String) (x : String) (h : x ∈ l) :
    0 ≤ jsIndexOf l x := by
  have h1 := jsIndexOf_neg_one_le l x
  have h2 : jsIndexOf l x ≠ -1 := by
    intro hc
    exact absurd h (by simpa using (jsIndexOf_eq_neg_one l x).1 hc)
  omega

theorem jsIndexOf_cons_of_mem (a x : String) (t : List String) (hax : a ≠ x)
    (h : x ∈ t) : jsIndexOf (a :: t) x = jsIndexOf t x + 1 := by
  have h2 : jsIndexOf t x ≠ -1 := by
    have := jsIndexOf_nonneg t x h
    omega
  simp only [jsIndexOf, if_neg hax, if_neg h2]

theorem jsIndexOf_append_left (l₁ l₂ : List String) (x : String)
    (h : x ∈ l₁) : jsIndexOf (l₁ ++ l₂) x = jsIndexOf l₁ x := by
  induction l₁ with
  | nil => cases h
  | cons a t ih =>
    by_cases ha : a = x
    · simp [jsIndexOf, ha]
    · have hm : x ∈ t := by
        rcases List.mem_cons.1 h with hc | hc
        · exact absurd hc.symm ha
        · exact hc
      have hm2 : x ∈ t ++ l₂ := List.mem_append.2 (Or.inl hm)
      rw [List.cons_append, jsIndexOf_cons_of_mem a x (t ++ l₂) ha hm2,
        jsIndexOf_cons_of_mem a x t ha hm, ih hm]

theorem jsIndexOf_append_last (l : List String) (x : String) (h : x ∉ l) :
    jsIndexOf (l ++ [x]) x = l.length := by
  induction l with
  | nil => simp [jsIndexOf]
  | cons a t ih =>
    have ha : a ≠ x := by
      intro hc
      exact h (by rw [hc]; simp)
    have ht : x ∉ t := fun hc => h (List.mem_cons_of_mem _ hc)
    have hm : x ∈ t ++ [x] := List.mem_append.2 (Or.inr (by simp))
    rw [List.cons_append, jsIndexOf_cons_of_mem a x (t ++ [x]) ha hm, ih ht]
    simp

theorem jsIndexOf_lt_length (l : List String) (x : String) (h : x ∈ l) :
    jsIndexOf l x < (l.length : Int) := by
  induction l with
  | nil => cases h
  | cons a t ih =>
    by_cases ha : a = x
    · simp [jsIndexOf, ha]
    · have hm : x ∈ t := by
        rcases List.mem_cons.1 h with hc | hc
        · exact absurd hc.symm ha
        · exact hc
      rw [jsIndexOf_cons_of_mem a x t ha hm]
      have := ih hm
      simp only [List.length_cons]
      push_cast
      omega

theorem nodup_jsIndexOf_map (l : List String) (hnd : l.Nodup) :
    l.map (fun x => jsIndexOf l x) = (List.range l.length).map
      (fun n => Int.ofNat n) := by
  induction l with
  | nil => simp
  | cons a t ih =>
    simp only [List.nodup_cons] at hnd
    have hmap : t.map (fun x => jsIndexOf (a :: t) x)
        = t.map (fun x => jsIndexOf t x + 1) := by
      apply List.map_congr_left
      intro x hx
      have hax : a ≠ x := fun hc => hnd.1 (hc ▸ hx)
      exact jsIndexOf_cons_of_mem a x t hax hx
    have hhead : jsIndexOf (a :: t) a = 0 := by simp [jsIndexOf]
    have lhs : t.map (fun x => jsIndexOf t x + 1)
        = (List.range t.length).map (fun n => Int.ofNat n + 1) := by
      rw [show (t.map fun x => jsIndexOf t x + 1)
          = (t.map fun x => jsIndexOf t x).map (fun i => i + 1) from by
        rw [List.map_map]
        rfl]
      rw [ih hnd.2, List.map_map]
      apply List.map_congr_left
      intro n _
      rfl
    have rhs : (List.range (t.length + 1)).map (fun n => Int.ofNat n)
        = 0 :: (List.range t.length).map (fun n => Int.ofNat n + 1) := by
      rw [List.range_succ_eq_map, List.map_cons, List.map_map]
      refine congrArg (List.cons (Int.ofNat 0)) ?_
      apply List.map_congr_left
      intro n _
      rfl
    simp only [List.map_cons, hhead, hmap, List.length_cons]
    rw [rhs, lhs]

mutual
/-- The canonical scan only appends to the map. -/
theorem cT_prefix (vs : List (String × PkgData)) (p : MigrationPackage)
    (vs' : List (String × PkgData)) (h : cT vs p = some vs') :
    ∃ ext, vs' = vs ++ ext := by
  obtain ⟨d, deps⟩ := p
  rw [cT] at h
  cases hlook : memoLookup vs (lower d.id) with
  | some d0 =>
    rw [hlook] at h
    replace h : (if d = sharedOf d0 d.depth then
        if deps = ([] : List MigrationPackage) then some vs else Option.none
      else Option.none) = some vs' := h
    by_cases hsh : d = sharedOf d0 d.depth
    · rw [if_pos hsh] at h
      by_cases hdeps : deps = ([] : List MigrationPackage)
      · rw [if_pos hdeps] at h
        simp only [Option.some.injEq] at h
        exact ⟨[], by rw [← h]; simp⟩
      · rw [if_neg hdeps] at h
        cases h
    · rw [if_neg hsh] at h
      cases h
  | none =>
    rw [hlook] at h
    replace h : cL (vs ++ [(lower d.id, d)]) deps = some vs' := h
    obtain ⟨ext, hext⟩ := cL_prefix (vs ++ [(lower d.id, d)]) deps vs' h
    exact ⟨(lower d.id, d) :: ext, by rw [hext]; simp⟩
/-- Forest version of `cT_prefix`. -/
theorem cL_prefix (vs : List (String × PkgData)) (l : List MigrationPackage)
    (vs' : List (String × PkgData)) (h : cL vs l = some vs') :
    ∃ ext, vs' = vs ++ ext := by
  cases l with
  | nil =>
    rw [cL] at h
    simp only [Option.some.injEq] at h
    exact ⟨[], by rw [← h]; simp⟩
  | cons p rest =>
    rw [cL] at h
    cases hcT : cT vs p with
    | none =>
      rw [hcT] at h
      cases h
    | some vs1 =>
      rw [hcT] at h
      obtain ⟨ext1, hext1⟩ := cT_prefix vs p vs1 hcT
      obtain ⟨ext2, hext2⟩ := cL_prefix vs1 rest vs' h
      exact ⟨ext1 ++ ext2, by rw [hext2, hext1, List.append_assoc]⟩
end

theorem self_mem_occList (p : MigrationPackage) : p ∈ occList p := by
  obtain ⟨d, deps⟩ := p
  rw [occList]
  exact List.mem_cons_self _ _

theorem mem_occListF_of_mem (l : List MigrationPackage) (p : MigrationPackage)
    (h : p ∈ l) : p ∈ occListF l := by
  induction l with
  | nil => cases h
  | cons q rest ih =>
    rw [occListF]
    rcases List.mem_cons.1 h with rfl | h2
    · exact List.mem_append.2 (Or.inl (self_mem_occList p))
    · exact List.mem_append.2 (Or.inr (ih h2))

theorem keys_eq_map_lower (m : List (String × PkgData))
    (hkeys : ∀ e ∈ m, e.1 = lower e.2.id) :
    m.map (·.1) = (m.map (·.2.id)).map lower := by
  rw [List.map_map]
  apply List.map_congr_left
  intro e he
  exact hkeys e he

mutual
/-- DFS/scan correspondence for one tree: if the tree is canonical for `vs`
and the DFS state `(path, order)` carries exactly the ids of `vs` (ancestor
ids still on the stack plus already-pushed ids), then the visit appends a
block `Δ`, the post-scan map's ids match the new state, every occurrence id
ends up pushed or on the stack, and every edge either closes a cycle into the
ancestor chain or points from a later-pushed parent to an earlier-pushed
child. -/
theorem visitP_master (p : MigrationPackage)
    (vs vs' : List (String × PkgData)) (ancIds order : List String)
    (h : cT vs p = some vs')
    (hperm : List.Perm (vs.map (·.2.id)) (ancIds ++ order))
    (hkeys : ∀ e ∈ vs', e.1 = lower e.2.id)
    (hnd : (vs'.map (·.1)).Nodup) :
    ∃ Δ, visitP (ancIds.map lower) order p = order ++ Δ
      ∧ List.Perm (vs'.map (·.2.id)) ((ancIds ++ order) ++ Δ)
      ∧ (∀ o ∈ occList p, o.data.id ∈ order ++ Δ ∨ o.data.id ∈ ancIds)
      ∧ (∀ e ∈ edgesT (ancIds.map lower) p,
          lower e.2.1 ∈ lower e.1 :: e.2.2
          ∨ (e.2.1 ∈ order ++ Δ ∧ e.1 ∈ order ++ Δ
            ∧ jsIndexOf (order ++ Δ) e.2.1 < jsIndexOf (order ++ Δ) e.1)) := by
  obtain ⟨d, deps⟩ := p
  rw [cT] at h
  cases hlook : memoLookup vs (lower d.id) with
  | some d0 =>
    rw [hlook] at h
    replace h : (if d = sharedOf d0 d.depth then
        if deps = ([] : List MigrationPackage) then some vs else Option.none
      else Option.none) = some vs' := h
    by_cases hsh : d = sharedOf d0 d.depth
    · rw [if_pos hsh] at h
      by_cases hdeps : deps = ([] : List MigrationPackage)
      · rw [if_pos hdeps] at h
        simp only [Option.some.injEq] at h
        subst h
        subst hdeps
        have hmemvs : (lower d.id, d0) ∈ vs := memoLookup_mem _ _ _ hlook
        have hdid : d.id = d0.id := by rw [hsh]; rfl
        have hidin : d0.id ∈ vs.map (·.2.id) := List.mem_map_of_mem _ hmemvs
        have hsplit : d0.id ∈ ancIds ++ order := hperm.mem_iff.1 hidin
        have hkeyin : lower d.id ∈ ancIds.map lower ++ order.map lower := by
          have h1 : lower d.id ∈ vs.map (·.1) := List.mem_map_of_mem _ hmemvs
          rw [keys_eq_map_lower vs hkeys] at h1
          have h2 := (hperm.map lower).mem_iff.1 h1
          simpa [List.map_append] using h2
        have hvisit : visitP (ancIds.map lower) order (.mk d []) = order := by
          rw [visitP]
          by_cases h1 : ((order.map lower).contains (lower d.id)) = true
          · rw [if_pos h1]
          · rw [if_neg h1]
            have h2 : lower d.id ∈ ancIds.map lower := by
              rcases List.mem_append.1 hkeyin with hc | hc
              · exact hc
              · exact absurd (List.elem_eq_true_of_mem hc) h1
            rw [if_pos (List.elem_eq_true_of_mem h2)]
        refine ⟨[], by rw [hvisit, List.append_nil], ?_, ?_, ?_⟩
        · rw [List.append_nil]
          exact hperm
        · intro o ho
          simp only [occList, occListF, List.mem_singleton] at ho
          subst ho
          simp only [MigrationPackage.data, List.append_nil]
          rw [hdid]
          rcases List.mem_append.1 hsplit with hc | hc
          · exact Or.inr hc
          · exact Or.inl hc
        · intro e he
          simp [edgesT, edgesF] at he
      · rw [if_neg hdeps] at h
        cases h
    · rw [if_neg hsh] at h
      cases h
  | none =>
    rw [hlook] at h
    replace h : cL (vs ++ [(lower d.id, d)]) deps = some vs' := h
    have hnin : lower d.id ∉ vs.map (·.1) := (memoLookup_eq_none_iff _ _).1 hlook
    have hperm' : List.Perm ((vs ++ [(lower d.id, d)]).map (·.2.id))
        ((d.id :: ancIds) ++ order) := by
      rw [List.map_append]
      have c1 : List.Perm
          (vs.map (·.2.id) ++ [(lower d.id, d)].map (·.2.id))
          (d.id :: vs.map (·.2.id)) := by
        simp only [List.map_cons, List.map_nil]
        exact List.perm_append_singleton _ _
      exact c1.trans (hperm.cons d.id)
    obtain ⟨Δc, hvisit, hperm2, hocc, hedges⟩ :=
      visitL_master deps (vs ++ [(lower d.id, d)]) vs' (d.id :: ancIds) order
        h hperm' hkeys hnd
    have hndids : ((lower d.id) ::
        (((ancIds ++ order) ++ Δc).map lower)).Nodup := by
      have h1 : vs'.map (·.1) = (vs'.map (·.2.id)).map lower :=
        keys_eq_map_lower vs' hkeys
      rw [h1] at hnd
      have h2 := (hperm2.map lower).nodup_iff.1 hnd
      exact h2
    have hdnotin : d.id ∉ order ++ Δc := by
      intro hc
      refine (List.nodup_cons.1 hndids).1 ?_
      rcases List.mem_append.1 hc with hc2 | hc2
      · exact List.mem_map_of_mem lower
          (List.mem_append.2 (Or.inl (List.mem_append.2 (Or.inr hc2))))
      · exact List.mem_map_of_mem lower (List.mem_append.2 (Or.inr hc2))
    have hninpath : lower d.id ∉ ancIds.map lower ++ order.map lower := by
      intro hc
      apply hnin
      rw [keys_eq_map_lower vs (fun e he => hkeys e (by
        obtain ⟨ext, hext⟩ := cL_prefix _ _ _ h
        rw [hext]
        exact List.mem_append.2 (Or.inl (List.mem_append.2 (Or.inl he)))))]
      refine (hperm.map lower).mem_iff.2 ?_
      simpa [List.map_append] using hc
    refine ⟨Δc ++ [d.id], ?_, ?_, ?_, ?_⟩
    · rw [visitP]
      have hn1 : ¬((order.map lower).contains (lower d.id) = true) := by
        intro hc
        exact hninpath (List.mem_append.2 (Or.inr (List.mem_of_elem_eq_true hc)))
      have hn2 : ¬((ancIds.map lower).contains (lower d.id) = true) := by
        intro hc
        exact hninpath (List.mem_append.2 (Or.inl (List.mem_of_elem_eq_true hc)))
      rw [if_neg hn1, if_neg hn2]
      have hv2 : visitL (lower d.id :: ancIds.map lower) order deps
          = order ++ Δc := by
        have := hvisit
        rw [List.map_cons] at this
        exact this
      rw [hv2, List.append_assoc]
    · have step : List.Perm (vs'.map (·.2.id))
          (((ancIds ++ order) ++ Δc) ++ [d.id]) := by
        refine hperm2.trans ?_
        have e1 : ((d.id :: ancIds) ++ order) ++ Δc
            = d.id :: ((ancIds ++ order) ++ Δc) := rfl
        rw [e1]
        exact (List.perm_append_singleton _ _).symm
      refine step.trans ?_
      rw [List.append_assoc]
    · intro o ho
      rw [occList] at ho
      rcases List.mem_cons.1 ho with rfl | ho2
      · left
        simp only [MigrationPackage.data]
        exact List.mem_append.2 (Or.inr (List.mem_append.2 (Or.inr (by simp))))
      · rcases hocc o ho2 with hin | hanc
        · left
          rcases List.mem_append.1 hin with h1 | h1
          · exact List.mem_append.2 (Or.inl h1)
          · exact List.mem_append.2 (Or.inr (List.mem_append.2 (Or.inl h1)))
        · rcases List.mem_cons.1 hanc with heq2 | h2
          · left
            rw [heq2]
            exact List.mem_append.2 (Or.inr (List.mem_append.2 (Or.inr (by simp))))
          · right
            exact h2
    · intro e he
      rw [edgesT] at he
      have assoc : order ++ (Δc ++ [d.id]) = (order ++ Δc) ++ [d.id] :=
        (List.append_assoc _ _ _).symm
      rcases List.mem_append.1 he with hdir | hrec
      · simp only [List.mem_map] at hdir
        obtain ⟨c, hc, rfl⟩ := hdir
        have hcocc := hocc c (mem_occListF_of_mem deps c hc)
        rcases hcocc with hin | hanc
        · right
          refine ⟨?_, ?_, ?_⟩
          · rw [assoc]
            exact List.mem_append.2 (Or.inl hin)
          · rw [assoc]
            exact List.mem_append.2 (Or.inr (by simp))
          · rw [assoc]
            show jsIndexOf ((order ++ Δc) ++ [d.id]) c.data.id
              < jsIndexOf ((order ++ Δc) ++ [d.id]) d.id
            rw [jsIndexOf_append_left _ _ _ hin,
              jsIndexOf_append_last _ _ hdnotin]
            exact jsIndexOf_lt_length _ _ hin
        · left
          rcases List.mem_cons.1 hanc with heq2 | h2
          · show lower c.id ∈ lower d.id :: ancIds.map lower
            exact List.mem_cons.2 (Or.inl (congrArg lower heq2))
          · show lower c.id ∈ lower d.id :: ancIds.map lower
            exact List.mem_cons.2 (Or.inr (List.mem_map_of_mem lower h2))
      · have he2 : e ∈ edgesF ((d.id :: ancIds).map lower) deps := by
          rw [List.map_cons]
          exact hrec
        rcases hedges e he2 with hesc | ⟨hm1, hm2, hlt⟩
        · left
          exact hesc
        · right
          refine ⟨?_, ?_, ?_⟩
          · rw [assoc]
            exact List.mem_append.2 (Or.inl hm1)
          · rw [assoc]
            exact List.mem_append.2 (Or.inl hm2)
          · rw [assoc, jsIndexOf_append_left _ _ _ hm1,
              jsIndexOf_append_left _ _ _ hm2]
            exact hlt
/-- DFS/scan correspondence for a forest (see `visitP_master`). -/
theorem visitL_master (l : List MigrationPackage)
    (vs vs' : List (String × PkgData)) (ancIds order : List String)
    (h : cL vs l = some vs')
    (hperm : List.Perm (vs.map (·.2.id)) (ancIds ++ order))
    (hkeys : ∀ e ∈ vs', e.1 = lower e.2.id)
    (hnd : (vs'.map (·.1)).Nodup) :
    ∃ Δ, visitL (ancIds.map lower) order l = order ++ Δ
      ∧ List.Perm (vs'.map (·.2.id)) ((ancIds ++ order) ++ Δ)
      ∧ (∀ o ∈ occListF l, o.data.id ∈ order ++ Δ ∨ o.data.id ∈ ancIds)
      ∧ (∀ e ∈ edgesF (ancIds.map lower) l,
          lower e.2.1 ∈ lower e.1 :: e.2.2
          ∨ (e.2.1 ∈ order ++ Δ ∧ e.1 ∈ order ++ Δ
            ∧ jsIndexOf (order ++ Δ) e.2.1 < jsIndexOf (order ++ Δ) e.1)) := by
  cases l with
  | nil =>
    rw [cL] at h
    simp only [Option.some.injEq] at h
    subst h
    refine ⟨[], by rw [visitL, List.append_nil], ?_, ?_, ?_⟩
    · rw [List.append_nil]
      exact hperm
    · intro o ho
      simp [occListF] at ho
    · intro e he
      simp [edgesF] at he
  | cons p rest =>
    rw [cL] at h
    cases hcT : cT vs p with
    | none =>
      rw [hcT] at h
      cases h
    | some vs1 =>
      rw [hcT] at h
      replace h : cL vs1 rest = some vs' := h
      obtain ⟨extr, hpre⟩ := cL_prefix vs1 rest vs' h
      have hkeys1 : ∀ e ∈ vs1, e.1 = lower e.2.id := fun e he =>
        hkeys e (by rw [hpre]; exact List.mem_append.2 (Or.inl he))
      have hnd1 : (vs1.map (·.1)).Nodup := by
        have := hnd
        rw [hpre, List.map_append] at this
        exact (List.nodup_append.1 this).1
      obtain ⟨Δ1, hv1, hp1, ho1, he1⟩ :=
        visitP_master p vs vs1 ancIds order hcT hperm hkeys1 hnd1
      have hperm1 : List.Perm (vs1.map (·.2.id))
          (ancIds ++ (order ++ Δ1)) := by
        refine hp1.trans ?_
        rw [List.append_assoc]
      obtain ⟨Δ2, hv2, hp2, ho2, he2⟩ :=
        visitL_master rest vs1 vs' ancIds (order ++ Δ1) h hperm1 hkeys hnd
      have assoc2 : order ++ (Δ1 ++ Δ2) = (order ++ Δ1) ++ Δ2 :=
        (List.append_assoc _ _ _).symm
      refine ⟨Δ1 ++ Δ2, ?_, ?_, ?_, ?_⟩
      · rw [visitL, hv1, hv2, List.append_assoc]
      · refine hp2.trans ?_
        rw [List.append_assoc, List.append_assoc, List.append_assoc]
      · intro o ho
        rw [occListF] at ho
        rcases List.mem_append.1 ho with h1 | h1
        · rcases ho1 o h1 with hin | hanc
          · left
            rcases List.mem_append.1 hin with h2 | h2
            · exact List.mem_append.2 (Or.inl h2)
            · exact List.mem_append.2 (Or.inr (List.mem_append.2 (Or.inl h2)))
          · right
            exact hanc
        · rcases ho2 o h1 with hin | hanc
          · left
            rw [assoc2]
            exact hin
          · right
            exact hanc
      · intro e he
        rw [edgesF] at he
        rcases List.mem_append.1 he with h1 | h1
        · rcases he1 e h1 with hesc | ⟨hm1, hm2, hlt⟩
          · left
            exact hesc
          · right
            refine ⟨?_, ?_, ?_⟩
            · rw [assoc2]
              exact List.mem_append.2 (Or.inl hm1)
            · rw [assoc2]
              exact List.mem_append.2 (Or.inl hm2)
            · rw [assoc2, jsIndexOf_append_left _ _ _ hm1,
                jsIndexOf_append_left _ _ _ hm2]
              exact hlt
        · rcases he2 e h1 with hesc | ⟨hm1, hm2, hlt⟩
          · left
            exact hesc
          · right
            refine ⟨?_, ?_, ?_⟩
            · rw [assoc2]
              exact hm1
            · rw [assoc2]
              exact hm2
            · rw [assoc2]
              exact hlt
end

theorem perm_of_nodup_setEq (a b : List String) (ha : a.Nodup) (hb : b.Nodup)
    (hm : ∀ x, x ∈ a ↔ x ∈ b) : List.Perm a b := by
  refine List.perm_iff_count.2 ?_
  intro x
  by_cases hx : x ∈ a
  · rw [List.count_eq_one_of_mem ha hx,
      List.count_eq_one_of_mem hb ((hm x).1 hx)]
  · rw [List.count_eq_zero_of_not_mem hx,
      List.count_eq_zero_of_not_mem (fun hc => hx ((hm x).2 hc))]

mutual
/-- `assignOrder` rewrites exactly the node data of every occurrence. -/
theorem assignT_occ_data (order : List String) (p : MigrationPackage) :
    (occList (assignT order p)).map (·.data)
      = (occList p).map (fun o => assignData order o.data) := by
  obtain ⟨d, deps⟩ := p
  rw [assignT]
  simp only [occList, List.map_cons]
  refine congrArg₂ List.cons rfl ?_
  exact assignF_occ_data order deps
/-- Forest version of `assignT_occ_data`. -/
theorem assignF_occ_data (order : List String) (l : List MigrationPackage) :
    (occListF (assignF order l)).map (·.data)
      = (occListF l).map (fun o => assignData order o.data) := by
  cases l with
  | nil => rfl
  | cons p rest =>
    rw [assignF]
    simp only [occListF, List.map_append]
    rw [assignT_occ_data order p, assignF_occ_data order rest]
end

/-- C3: on every forest produced by `loadDependencyTree`,
`calculateMigrationOrder` returns each unique package id exactly once (the
list is duplicate-free, covers every occurrence's id, contains only
occurring ids, and its length is the number of distinct case-insensitive
ids); `assignOrder` gives every occurrence `migrationOrder = indexOf + 1`, so
over the unique packages the assigned orders are exactly 1..N; and every
(parent, child) edge of the tree satisfies child-order < parent-order unless
the child's id closes a cycle into the edge's own ancestor chain (the
arbitrary break of the visiting-set guard). -/
theorem C3_migration_order :
    ∀ (env : LoaderEnv) (roots : List String) (out : List MigrationPackage)
      (st : LoaderState),
      loadDependencyTree env roots = some (out, st) →
      ((calculateMigrationOrder out).Nodup
        ∧ (∀ o ∈ occListF out, o.data.id ∈ calculateMigrationOrder out)
        ∧ (∀ id ∈ calculateMigrationOrder out,
            ∃ o ∈ occListF out, o.data.id = id)
        ∧ (calculateMigrationOrder out).length
            = (((occListF out).map fun o => lower o.data.id).dedup).length)
      ∧ ((calculateMigrationOrder out).map
            (fun id => jsIndexOf (calculateMigrationOrder out) id + 1)
            = (List.range (calculateMigrationOrder out).length).map
              (fun n => Int.ofNat n + 1)
        ∧ (∀ o ∈ occListF (assignF (calculateMigrationOrder out) out),
            o.data.migrationOrder
              = jsIndexOf (calculateMigrationOrder out) o.data.id + 1))
      ∧ (∀ e ∈ edgesF [] out,
          jsIndexOf (calculateMigrationOrder out) e.2.1
              < jsIndexOf (calculateMigrationOrder out) e.1
            ∨ lower e.2.1 ∈ lower e.1 :: e.2.2) := by
  intro env roots out st hr
  obtain ⟨hok, hwf, hcL, _⟩ := loadDependencyTree_post env roots out st hr
  obtain ⟨⟨ext, hext, hmap⟩, _⟩ :=
    cL_master [] out st.visited hcL (entries_flags env st.visited hok)
  have hvext : st.visited = ext := by simpa using hext
  obtain ⟨Δ, hvisit, hperm2, hocc, hedges⟩ :=
    visitL_master out [] st.visited [] [] hcL (by simp) hwf.2.1 hwf.1
  have horder : calculateMigrationOrder out = Δ := hvisit
  have hperm3 : List.Perm (st.visited.map (·.2.id)) Δ := by
    simpa using hperm2
  have hndl : (Δ.map lower).Nodup := by
    have h1 : st.visited.map (·.1) = (st.visited.map (·.2.id)).map lower :=
      keys_eq_map_lower st.visited hwf.2.1
    have h2 := hwf.1
    rw [h1] at h2
    exact (hperm3.map lower).nodup_iff.1 h2
  have hnd2 : Δ.Nodup := hndl.of_map
  have hocc2 : ∀ o ∈ occListF out, o.data.id ∈ Δ := by
    intro o ho
    rcases hocc o ho with hin | hanc
    · simpa using hin
    · cases hanc
  have hids : st.visited.map (·.2.id)
      = ((occListF out).filter fun o => !o.data.isSharedReference).map
        (fun o => o.data.id) := by
    rw [hvext, ← hmap, List.map_map]
    rfl
  have hinv : ∀ id ∈ Δ, ∃ o ∈ occListF out, o.data.id = id := by
    intro id hid
    have hmem : id ∈ st.visited.map (·.2.id) := hperm3.mem_iff.2 hid
    rw [hids] at hmem
    simp only [List.mem_map] at hmem
    obtain ⟨o, ho, hoid⟩ := hmem
    exact ⟨o, List.mem_of_mem_filter ho, hoid⟩
  refine ⟨⟨?_, ?_, ?_, ?_⟩, ⟨?_, ?_⟩, ?_⟩
  · rw [horder]
    exact hnd2
  · rw [horder]
    exact hocc2
  · rw [horder]
    exact hinv
  · rw [horder]
    have hsame : ∀ x, x ∈ Δ.map lower
        ↔ x ∈ ((occListF out).map fun o => lower o.data.id).dedup := by
      intro x
      rw [List.mem_dedup]
      constructor
      · intro hx
        simp only [List.mem_map] at hx ⊢
        obtain ⟨id, hidΔ, rfl⟩ := hx
        obtain ⟨o, ho, rfl⟩ := hinv id hidΔ
        exact ⟨o, ho, rfl⟩
      · intro hx
        simp only [List.mem_map] at hx ⊢
        obtain ⟨o, ho, rfl⟩ := hx
        exact ⟨o.data.id, hocc2 o ho, rfl⟩
    have hpp := perm_of_nodup_setEq (Δ.map lower)
      (((occListF out).map fun o => lower o.data.id).dedup) hndl
      (List.nodup_dedup _) hsame
    have hlen := hpp.length_eq
    simpa using hlen
  · rw [horder]
    rw [show (Δ.map fun id => jsIndexOf Δ id + 1)
        = (Δ.map fun id => jsIndexOf Δ id).map (fun i => i + 1) from by
      rw [List.map_map]
      rfl]
    rw [nodup_jsIndexOf_map Δ hnd2, List.map_map]
    apply List.map_congr_left
    intro n _
    rfl
  · rw [horder]
    intro o ho
    have hdata : o.data ∈ (occListF (assignF Δ out)).map (·.data) :=
      List.mem_map_of_mem _ ho
    rw [assignF_occ_data] at hdata
    simp only [List.mem_map] at hdata
    obtain ⟨o0, ho0, hdeq⟩ := hdata
    have hin : jsIndexOf Δ o0.data.id ≠ -1 := by
      have h1 := jsIndexOf_nonneg Δ o0.data.id (hocc2 o0 ho0)
      omega
    have hform : o.data = { o0.data with
        migrationOrder := jsIndexOf Δ o0.data.id + 1 } := by
      rw [← hdeq]
      unfold assignData
      rw [if_pos hin]
    rw [hform]
  · intro e he
    rcases hedges e he with hesc | ⟨_, _, hlt⟩
    · right
      exact hesc
    · left
      rw [horder]
      exact hlt

/-- C3 witness: the order contract instantiated on the chain A→B→C, whose
concrete migration order is C, B, A (dependencies first). -/
theorem C3_migration_order_witness :
    (∃ out st, loadDependencyTree chainEnv ["A"] = some (out, st)
      ∧ (calculateMigrationOrder out).Nodup
      ∧ (∀ e ∈ edgesF [] out,
          jsIndexOf (calculateMigrationOrder out) e.2.1
              < jsIndexOf (calculateMigrationOrder out) e.1
            ∨ lower e.2.1 ∈ lower e.1 :: e.2.2))
    ∧ (match loadDependencyTree chainEnv ["A"] with
       | some (out, _) => calculateMigrationOrder out
       | Option.none => []) = ["C", "B", "A"] := by
  refine ⟨?_, by decide⟩
  obtain ⟨⟨out, st⟩, hr⟩ := loadDependencyTree_total chainEnv ["A"]
  obtain ⟨⟨hnd, _, _, _⟩, _, hedges⟩ :=
    C3_migration_order chainEnv ["A"] out st hr
  exact ⟨out, st, hr, hnd, hedges⟩

end NugetExplorer
